import Mathlib

/-!
Course planner (CS-300 Project Two): hash table with chaining.

A shallow embedding of `ProjectTwo.cpp` and the properties of its
specification that concern the key normalizer, the record parser, the hash
table engine and the catalog queries.

Conventions of the embedding.

* A `std::string` is a list of bytes (`Str = List (Fin 256)`); every
  comparison and every sum works on the unsigned byte values, as the source
  does (`static_cast<unsigned char>`, `char_traits<char>`).
* A chain of `HashNode`s is the list of the courses of its nodes, head first;
  `nullptr` is the empty list.
* Operations whose C++ behaviour is undefined on some inputs (signed overflow
  of the `int` accumulator in `hashKey`, division by a zero `tableSize`, an
  index outside `buckets`) return `Option`, and `none` stands for the undefined
  behaviour.  A pointer result that may be `nullptr` is an `Option` as well.
-/

namespace CoursePlanner

/-! ## Strings -/

/-- One `char` of a `std::string`, read as `unsigned char`. -/
abbrev Byte := Fin 256

/-- A `std::string`: its bytes in order. -/
abbrev Str := List Byte

/-- Membership in the character set `" \t\r\n"` used by `trim`. -/
def isTrimChar (c : Byte) : Bool :=
  c == 32 || c == 9 || c == 13 || c == 10

/-- The call `s.find_first_not_of(" \t\r\n")`; `none` is `string::npos`. -/
def find_first_not_of : Str → Option Nat
  | [] => none
  | c :: rest =>
    if isTrimChar c then (find_first_not_of rest).map (· + 1) else some 0

/-- The call `s.find_last_not_of(" \t\r\n")`; `none` is `string::npos`. -/
def find_last_not_of : Str → Option Nat
  | [] => none
  | c :: rest =>
    match find_last_not_of rest with
    | some i => some (i + 1)
    | none => if isTrimChar c then none else some 0

/-- The call `s.substr(pos, n)` for `pos ≤ s.size()`: at most `n` bytes from `pos`. -/
def substr (s : Str) (pos n : Nat) : Str :=
  (s.drop pos).take n

/-- Source `trim` (lines 27-32).  When `start` is found, `end` is found too
(`find_last_not_of_isSome`), so the last branch is never taken; it holds what
`substr(start, npos - start + 1)` returns, the rest of the string. -/
def trim (s : Str) : Str :=
  match find_first_not_of s with
  | none => []
  | some start =>
    match find_last_not_of s with
    | some e => substr s start (e - start + 1)
    | none => s.drop start

/-- The C library `toupper` on an `unsigned char` in the default "C" locale. -/
def toupper (c : Byte) : Byte :=
  if h : 97 ≤ c.val ∧ c.val ≤ 122 then ⟨c.val - 32, by omega⟩ else c

/-- Source `toUpper` (lines 41-46): `transform` with `toupper` over the bytes. -/
def toUpper (s : Str) : Str :=
  s.map toupper

/-- The comparison `a < b` of two `std::string`s: lexicographic on the
unsigned bytes, a proper prefix being smaller. -/
def strLt : Str → Str → Bool
  | [], [] => false
  | [], _ :: _ => true
  | _ :: _, [] => false
  | a :: as, b :: bs =>
    if a < b then true else if b < a then false else strLt as bs

/-! ## Courses and the hash table -/

/-- Source `struct Course` (lines 54-58). -/
structure Course where
  courseNumber : Str
  courseName : Str
  prereqList : List Str
deriving DecidableEq

/-- Largest value of a 32-bit `int`. -/
def INT_MAX : Int := 2147483647

/-- The loop `for (char ch : key) sum += static_cast<unsigned char>(ch)` of
`hashKey`, started at `sum`.  `none`: the addition overflows `int`, which is
undefined behaviour. -/
def hashKey.sumLoop : Int → Str → Option Int
  | sum, [] => some sum
  | sum, ch :: rest =>
    if sum + (ch.val : Int) ≤ INT_MAX then hashKey.sumLoop (sum + (ch.val : Int)) rest
    else none

/-- Source `HashTable::hashKey` (lines 165-169).  `%` on `int` truncates toward
zero (`Int.tmod`); a zero `tableSize` is a division by zero. -/
def hashKey (tableSize : Int) (key : Str) : Option Int :=
  match hashKey.sumLoop 0 key with
  | none => none
  | some sum => if tableSize = 0 then none else some (Int.tmod sum tableSize)

/-- Source `class HashTable`: the vector of bucket heads, each chain given by
the courses of its nodes from the head on, and `tableSize`. -/
structure HashTable where
  buckets : List (List Course)
  tableSize : Int
deriving DecidableEq

/-- Source constructor `HashTable(int size = 20)` (lines 83-86) for `0 ≤ size`:
`size` null bucket heads.  (A negative `size` makes `resize` throw; the
properties below all take `0 < size`.) -/
def HashTable.new (size : Int := 20) : HashTable :=
  { buckets := List.replicate size.toNat [], tableSize := size }

/-- The access `buckets[key]` with an `int` index; `none` outside the vector. -/
def bucketAt (buckets : List (List Course)) (key : Int) : Option (List Course) :=
  if key < 0 then none else buckets[key.toNat]?

/-- Lines 109-117 of `insertCourse`: an empty bucket receives the new node,
otherwise the chain is walked to its last node and the new node linked there. -/
def appendNode : List Course → Course → List Course
  | [], c => [c]
  | node :: next, c => node :: appendNode next c

/-- Source `HashTable::insertCourse` (lines 105-118). -/
def insertCourse (t : HashTable) (c : Course) : Option HashTable :=
  match hashKey t.tableSize c.courseNumber with
  | none => none
  | some key =>
    match bucketAt t.buckets key with
    | none => none
    | some chain =>
      some { t with buckets := t.buckets.set key.toNat (appendNode chain c) }

/-- The `while (current != nullptr)` walk of `findCourse` over one chain. -/
def findInChain : List Course → Str → Option Course
  | [], _ => none
  | node :: next, courseNumber =>
    if node.courseNumber = courseNumber then some node
    else findInChain next courseNumber

/-- Source `HashTable::findCourse` (lines 124-135).  The outer `Option` is
`none` when the call has undefined behaviour; the inner one is the returned
pointer, `none` for `nullptr`. -/
def findCourse (t : HashTable) (courseNumber : Str) : Option (Option Course) :=
  match hashKey t.tableSize courseNumber with
  | none => none
  | some key =>
    match bucketAt t.buckets key with
    | none => none
    | some chain => some (findInChain chain courseNumber)

/-- The `for` loop of `getAllCourses` over the bucket indices still to visit,
`all` being the vector collected so far. -/
def getAllCourses.loop (t : HashTable) : List Nat → List Course → Option (List Course)
  | [], all => some all
  | i :: more, all =>
    match bucketAt t.buckets (i : Int) with
    | none => none
    | some chain => getAllCourses.loop t more (all ++ chain)

/-- Source `HashTable::getAllCourses` (lines 141-152): `i` runs over
`0 .. tableSize - 1`. -/
def getAllCourses (t : HashTable) : Option (List Course) :=
  getAllCourses.loop t (List.range t.tableSize.toNat) []

/-- A sequence of `insertCourse` calls, in order, on the table `t`. -/
def insertAll : HashTable → List Course → Option HashTable
  | t, [] => some t
  | t, c :: cs =>
    match insertCourse t c with
    | none => none
    | some t1 => insertAll t1 cs

/-! ## Sorted listing -/

/-- The requirement `std::sort` puts on its comparator: a strict weak
ordering. -/
structure StrictWeakOrder {α : Type} (comp : α → α → Bool) : Prop where
  irrefl : ∀ a, comp a a = false
  trans : ∀ a b c, comp a b = true → comp b c = true → comp a c = true
  incomp_trans : ∀ a b c, comp a b = false → comp b a = false →
    comp b c = false → comp c b = false → comp a c = false ∧ comp c a = false

/-- The contract of `std::sort(first, last, comp)` in the C++ standard, for a
function from the comparator and the range before the call to the range after
it: for a strict weak ordering the result is a rearrangement of the input in
which no element is `comp`-smaller than an element before it.  The standard
fixes neither the algorithm nor the order of equivalent elements. -/
def IsStdSort (sort : (Course → Course → Bool) → List Course → List Course) : Prop :=
  ∀ comp, StrictWeakOrder comp → ∀ l,
    (sort comp l).Perm l ∧ (sort comp l).Pairwise (fun a b => comp b a = false)

/-- The comparator of `printCourseList` (lines 231-233):
`a.courseNumber < b.courseNumber`. -/
def courseLess (a b : Course) : Bool :=
  strLt a.courseNumber b.courseNumber

/-- The vector `courses` of `printCourseList` after the `sort` call
(lines 228-233), for the sorting function `sort`. -/
def sortedCourses (sort : (Course → Course → Bool) → List Course → List Course)
    (t : HashTable) : Option (List Course) :=
  (getAllCourses t).map (sort courseLess)

/-- Source `printCourseList` (lines 227-238): the lines written to `cout`,
`courseNumber ", " courseName` for each course of the sorted vector. -/
def printCourseList (sort : (Course → Course → Bool) → List Course → List Course)
    (t : HashTable) : Option (List Str) :=
  (sortedCourses sort t).map
    (fun courses => courses.map (fun c => c.courseNumber ++ [44, 32] ++ c.courseName))

/-- Insertion of `x` before the first element that is `comp`-greater. -/
def insertSorted (comp : Course → Course → Bool) (x : Course) : List Course → List Course
  | [] => [x]
  | y :: ys => if comp x y then x :: y :: ys else y :: insertSorted comp x ys

/-- One sorting function that meets the contract `IsStdSort`: insertion sort. -/
def insertionSortBy (comp : Course → Course → Bool) : List Course → List Course
  | [] => []
  | x :: xs => insertSorted comp x (insertionSortBy comp xs)

/-! ## Loading: `std::stringstream`, `getline` and the line loop -/

/-- The delimiter `','`. -/
def comma : Byte := 44

/-- A `std::stringstream` opened on a string: the characters not yet read and
the state bits `eofbit` and `failbit`. -/
structure StringStream where
  rest : Str
  eofbit : Bool
  failbit : Bool
deriving DecidableEq

/-- The stream `stringstream ss(line)`. -/
def StringStream.ofStr (line : Str) : StringStream :=
  { rest := line, eofbit := false, failbit := false }

/-- The extraction of `getline(ss, token, delim)`: the characters before the
first delimiter, the characters after it, and whether a delimiter was met
(`false`: the end of the input was reached first). -/
def getline.scan (delim : Byte) : Str → Str × Str × Bool
  | [] => ([], [], false)
  | c :: rest =>
    if c = delim then ([], rest, true)
    else
      let r := getline.scan delim rest
      (c :: r.1, r.2.1, r.2.2)

/-- The call `getline(ss, token, delim)` of the standard library, tested as a
condition: the token when the call succeeds (`none` when `failbit` is set), and
the stream afterwards.  A stream that is not `good()` fails at once; the
delimiter is extracted and dropped; reaching the end of the input sets `eofbit`,
and extracting nothing at all sets `failbit`. -/
def getline (ss : StringStream) (delim : Byte) : Option Str × StringStream :=
  if ss.eofbit || ss.failbit then (none, { ss with failbit := true })
  else
    match getline.scan delim ss.rest with
    | (token, rest, true) => (some token, { ss with rest := rest })
    | (token, rest, false) =>
      if token.isEmpty then (none, { rest := rest, eofbit := true, failbit := true })
      else (some token, { rest := rest, eofbit := true, failbit := false })

/-- The loop `while (getline(ss, token, ','))` of lines 209-212, `prereqList`
being the vector built so far.  `fuel` bounds the number of iterations; every
iteration but the last consumes a delimiter, so `ss.rest.length + 2` is enough
(`prereqLoop_fuel`). -/
def prereqLoop : Nat → StringStream → List Str → List Str
  | 0, _, prereqList => prereqList
  | fuel + 1, ss, prereqList =>
    match getline ss comma with
    | (none, _) => prereqList
    | (some token, ss1) =>
      let prereq := toUpper (trim token)
      prereqLoop fuel ss1 (if prereq.isEmpty then prereqList else prereqList ++ [prereq])

/-- Lines 195-212 of `loadDataStructure` for one trimmed line: the course that
is passed to `insertCourse`, or `none` when a `continue` skips the line. -/
def parseLine (line : Str) : Option Course :=
  match getline (StringStream.ofStr line) comma with
  | (none, _) => none
  | (some token, ss1) =>
    let courseNumber := toUpper (trim token)
    match getline ss1 comma with
    | (none, _) => none
    | (some token2, ss2) =>
      let courseName := trim token2
      some { courseNumber := courseNumber, courseName := courseName,
             prereqList := prereqLoop (ss2.rest.length + 2) ss2 [] }

/-- The body of the `while (getline(inFile, line))` loop (lines 192-214) for
one line of the file. -/
def processLine (table : HashTable) (line : Str) : Option HashTable :=
  let line := trim line
  if line.isEmpty then some table
  else
    match parseLine line with
    | none => some table
    | some c => insertCourse table c

/-- The `while (getline(inFile, line))` loop over the lines of the file. -/
def loadLines : HashTable → List Str → Option HashTable
  | table, [] => some table
  | table, line :: more =>
    match processLine table line with
    | none => none
    | some table1 => loadLines table1 more

/-- Source `loadDataStructure` (lines 183-220).  The file is given by its
lines, `none` when it cannot be opened; the result is the returned flag and the
table after the call. -/
def loadDataStructure (file : Option (List Str)) (table : HashTable) :
    Option (Bool × HashTable) :=
  match file with
  | none => some (false, table)
  | some lines => (loadLines table lines).map (fun table1 => (true, table1))

/-- The fields of a line in the words of the specification ("splits the line on
a comma delimiter into an ordered sequence of fields"): the maximal runs of
bytes between delimiters, so a line with `n` delimiters has `n + 1` fields. -/
def splitFields (delim : Byte) : Str → List Str
  | [] => [[]]
  | c :: rest =>
    if c = delim then [] :: splitFields delim rest
    else
      match splitFields delim rest with
      | [] => [[c]]
      | field :: more => (c :: field) :: more

/-! ## Single-course query -/

/-- The loop of lines 264-267: the prerequisites separated by `", "`. -/
def joinPrereqs : List Str → Str
  | [] => []
  | [p] => p
  | p :: q :: more => p ++ [44, 32] ++ joinPrereqs (q :: more)

/-- Lines 258-269 of `printSingleCourse` for a found course: the two lines
written to `cout`. -/
def printFound (c : Course) : List Str :=
  [ c.courseNumber ++ [44, 32] ++ c.courseName,
    [80, 114, 101, 114, 101, 113, 117, 105, 115, 105, 116, 101, 115, 58, 32] ++
      (if c.prereqList.isEmpty then [78, 111, 110, 101] else joinPrereqs c.prereqList) ]

/-- Source `printSingleCourse` (lines 245-270) after the prompt, `input` being
the string that `cin >> input` has read: the lines written to `cout`. -/
def printSingleCourse (table : HashTable) (input : Str) : Option (List Str) :=
  let courseNumber := toUpper input
  match findCourse table courseNumber with
  | none => none
  | some none =>
    some [[67, 111, 117, 114, 115, 101, 32, 110, 111, 116, 32, 102, 111, 117, 110, 100, 46]]
  | some (some c) => some (printFound c)

/-! ## Notions used to state the properties -/

/-- The sum of the unsigned byte values of a string, as a natural number. -/
def byteSum (key : Str) : Nat :=
  (key.map (fun ch => ch.val)).sum

/-- The courses of `cs`, in their order, whose `hashKey` is the bucket index `i`. -/
def bucketContents (tableSize : Int) (cs : List Course) (i : Nat) : List Course :=
  cs.filter (fun c => hashKey tableSize c.courseNumber == some (i : Int))

/-- The first course of `cs` whose `courseNumber` is byte for byte `k`. -/
def firstMatch (cs : List Course) (k : Str) : Option Course :=
  cs.find? (fun c => decide (c.courseNumber = k))

/-- The bucket invariant of the table: as many buckets as `tableSize`, and
every course of bucket `i` has `hashKey` equal to `i`. -/
structure BucketInv (t : HashTable) : Prop where
  size_pos : 0 < t.tableSize
  length_eq : t.buckets.length = t.tableSize.toNat
  placed : ∀ (i : Nat) (chain : List Course), t.buckets[i]? = some chain →
    ∀ c ∈ chain, hashKey t.tableSize c.courseNumber = some (i : Int)

/-- The table that holds the courses `cs`, each in the bucket of its `hashKey`
and in the order of `cs`. -/
def tableOf (tableSize : Int) (cs : List Course) : HashTable :=
  { buckets := (List.range tableSize.toNat).map (bucketContents tableSize cs),
    tableSize := tableSize }

/-- The key normalizer of the specification: `toUpper(trim(s))`. -/
def normalize (s : Str) : Str :=
  toUpper (trim s)

/-- The prerequisite list in the words of the specification: every field
trimmed and normalized, the fields that are empty after that dropped, the order
kept. -/
def prereqsOfFields (fields : List Str) : List Str :=
  (fields.map (fun f => toUpper (trim f))).filter (fun p => !p.isEmpty)

/-! ## Sample data: the courses of the end-to-end scenario of the specification -/

/-- The text `CSCI100`. -/
def sCSCI100 : Str := [67, 83, 67, 73, 49, 48, 48]

/-- The text `CSCI300`. -/
def sCSCI300 : Str := [67, 83, 67, 73, 51, 48, 48]

/-- The text `MATH201`. -/
def sMATH201 : Str := [77, 65, 84, 72, 50, 48, 49]

/-- The course `CSCI100,Intro to CS`. -/
def cCSCI100 : Course :=
  { courseNumber := sCSCI100,
    courseName := [73, 110, 116, 114, 111, 32, 116, 111, 32, 67, 83],
    prereqList := [] }

/-- The course `CSCI300,Intro to Algorithms,CSCI100`. -/
def cCSCI300 : Course :=
  { courseNumber := sCSCI300,
    courseName := [73, 110, 116, 114, 111, 32, 116, 111, 32, 65, 108, 103, 111, 114, 105,
      116, 104, 109, 115],
    prereqList := [sCSCI100] }

/-- The course `MATH201,Discrete Math`. -/
def cMATH201 : Course :=
  { courseNumber := sMATH201,
    courseName := [68, 105, 115, 99, 114, 101, 116, 101, 32, 77, 97, 116, 104],
    prereqList := [] }

/-- The line ` csci300 , Intro to Algorithms ,csci200, ,math201,`. -/
def sampleLine : Str :=
  [32, 99, 115, 99, 105, 51, 48, 48, 32, 44, 32, 73, 110, 116, 114, 111, 32, 116, 111, 32, 65,
    108, 103, 111, 114, 105, 116, 104, 109, 115, 32, 44, 99, 115, 99, 105, 50, 48, 48, 44, 32,
    44, 109, 97, 116, 104, 50, 48, 49, 44]

/-- The course that `sampleLine` is parsed into: `CSCI300`, `Intro to Algorithms`
and the prerequisites `CSCI200`, `MATH201`. -/
def sampleCourse : Course :=
  { courseNumber := sCSCI300,
    courseName := [73, 110, 116, 114, 111, 32, 116, 111, 32, 65, 108, 103, 111, 114, 105,
      116, 104, 109, 115],
    prereqList := [[67, 83, 67, 73, 50, 48, 48], sMATH201] }

/-! ## Standard input of the single-course query, and the courses of a file -/

/-- The C library `isspace` in the default "C" locale: space, `\t`, `\n`,
`\v`, `\f` and `\r`. -/
def isspace (c : Byte) : Bool :=
  c == 32 || c == 9 || c == 10 || c == 11 || c == 12 || c == 13

/-- The string that `cin >> input` stores (line 249), `cin` being the unread
text of standard input: the leading whitespace is skipped, then the characters
up to the next whitespace are extracted; the string is empty when there are
none. -/
def cinExtract (cin : Str) : Str :=
  (cin.dropWhile isspace).takeWhile (fun c => !isspace c)

/-- The pointer `c` of line 252 when `printSingleCourse` runs on the unread
text `cin` of standard input. -/
def singleCourseLookup (table : HashTable) (cin : Str) : Option (Option Course) :=
  findCourse table (toUpper (cinExtract cin))

/-- Source `printSingleCourse` (lines 245-270) run on the unread text `cin` of
standard input: the lines written to `cout` after the prompt. -/
def singleCourseQuery (table : HashTable) (cin : Str) : Option (List Str) :=
  printSingleCourse table (cinExtract cin)

/-- The courses that `loadDataStructure` passes to `insertCourse` for the lines
of a file, in order. -/
def parseAll (lines : List Str) : List Course :=
  lines.filterMap (fun line => parseLine (trim line))

/-- The line `CSCI100,Intro to CS`. -/
def lineCSCI100 : Str :=
  [67, 83, 67, 73, 49, 48, 48, 44, 73, 110, 116, 114, 111, 32, 116, 111, 32, 67, 83]

/-- The line `CSCI300,Intro to Algorithms,CSCI100`. -/
def lineCSCI300 : Str :=
  [67, 83, 67, 73, 51, 48, 48, 44, 73, 110, 116, 114, 111, 32, 116, 111, 32, 65, 108, 103, 111,
    114, 105, 116, 104, 109, 115, 44, 67, 83, 67, 73, 49, 48, 48]

/-- The line `MATH201,Discrete Math`. -/
def lineMATH201 : Str :=
  [77, 65, 84, 72, 50, 48, 49, 44, 68, 105, 115, 99, 114, 101, 116, 101, 32, 77, 97, 116, 104]

/-- The three input lines of the end-to-end scenario. -/
def scenarioLines : List Str := [lineCSCI100, lineCSCI300, lineMATH201]

/-- The text `CSCI999`. -/
def sCSCI999 : Str := [67, 83, 67, 73, 57, 57, 57]

/-- The text `Course not found.`. -/
def sNotFound : Str :=
  [67, 111, 117, 114, 115, 101, 32, 110, 111, 116, 32, 102, 111, 117, 110, 100, 46]

/-! ## `std::sort` as libstdc++ implements it

The functions of `bits/stl_algo.h` and `bits/stl_heap.h` (GCC 12) behind
`std::sort`, on a vector given by the list of its elements; iterators are
positions in the list.  A move is a copy here: every slot that is moved from is
assigned again before it is read.  `none` stands for an access outside the
vector (which a comparator that is a strict weak ordering never causes) or for a
loop that does not end within the length of the vector. -/

/-- The comparison `comp(*i, *j)` of two positions of the vector; `none` outside it. -/
def libstdcxx.compAt {α : Type} (comp : α → α → Bool) (v : List α) (i j : Nat) : Option Bool :=
  match v[i]?, v[j]? with
  | some a, some b => some (comp a b)
  | _, _ => none

/-- The call `std::iter_swap(i, j)`. -/
def libstdcxx.iterSwap {α : Type} (v : List α) (i j : Nat) : Option (List α) :=
  match v[i]?, v[j]? with
  | some a, some b => some ((v.set i b).set j a)
  | _, _ => none

/-- The assignment `*(i) = value`. -/
def libstdcxx.assign {α : Type} (v : List α) (i : Nat) (value : α) : Option (List α) :=
  if i < v.length then some (v.set i value) else none

/-- The floor of the binary logarithm of `n`, for `n ≤ fuel`. -/
def libstdcxx.lgLoop : Nat → Nat → Nat
  | 0, _ => 0
  | fuel + 1, n => if 2 ≤ n then libstdcxx.lgLoop fuel (n / 2) + 1 else 0

/-- `std::__lg(n)` (stl_algobase.h). -/
def libstdcxx.lg (n : Nat) : Nat :=
  libstdcxx.lgLoop n n

/-- `std::__move_median_to_first(result, a, b, c, comp)` (stl_algo.h, line 82). -/
def libstdcxx.moveMedianToFirst {α : Type} (comp : α → α → Bool) (v : List α) (result a b c : Nat) :
    Option (List α) :=
  match libstdcxx.compAt comp v a b, libstdcxx.compAt comp v b c, libstdcxx.compAt comp v a c with
  | some ab, some bc, some ac =>
    if ab then
      if bc then libstdcxx.iterSwap v result b
      else if ac then libstdcxx.iterSwap v result c
      else libstdcxx.iterSwap v result a
    else if ac then libstdcxx.iterSwap v result a
    else if bc then libstdcxx.iterSwap v result c
    else libstdcxx.iterSwap v result b
  | _, _, _ => none

/-- The loop `while (comp(first, pivot)) ++first` of `__unguarded_partition`. -/
def libstdcxx.advanceFirst {α : Type}
    (comp : α → α → Bool) (v : List α) (pivot : Nat) : Nat → Nat → Option Nat
  | 0, _ => none
  | fuel + 1, first =>
    match libstdcxx.compAt comp v first pivot with
    | none => none
    | some true => libstdcxx.advanceFirst comp v pivot fuel (first + 1)
    | some false => some first

/-- The loop `while (comp(pivot, last)) --last` of `__unguarded_partition`. -/
def libstdcxx.retreatLast {α : Type}
    (comp : α → α → Bool) (v : List α) (pivot : Nat) : Nat → Nat → Option Nat
  | 0, _ => none
  | fuel + 1, last =>
    match libstdcxx.compAt comp v pivot last with
    | none => none
    | some true => if last = 0 then none else libstdcxx.retreatLast comp v pivot fuel (last - 1)
    | some false => some last

/-- `std::__unguarded_partition(first, last, pivot, comp)` (line 1861): the cut
and the vector afterwards. -/
def libstdcxx.unguardedPartition {α : Type} (comp : α → α → Bool) (pivot : Nat) :
    Nat → List α → Nat → Nat → Option (Nat × List α)
  | 0, _, _, _ => none
  | fuel + 1, v, first, last =>
    match libstdcxx.advanceFirst comp v pivot (v.length + 1) first with
    | none => none
    | some first1 =>
      if last = 0 then none
      else
        match libstdcxx.retreatLast comp v pivot (v.length + 1) (last - 1) with
        | none => none
        | some last1 =>
          if first1 < last1 then
            match libstdcxx.iterSwap v first1 last1 with
            | none => none
            | some v1 => libstdcxx.unguardedPartition comp pivot fuel v1 (first1 + 1) last1
          else some (first1, v)

/-- `std::__unguarded_partition_pivot(first, last, comp)` (line 1883). -/
def libstdcxx.unguardedPartitionPivot {α : Type}
    (comp : α → α → Bool) (v : List α) (first last : Nat) :
    Option (Nat × List α) :=
  let mid := first + (last - first) / 2
  match libstdcxx.moveMedianToFirst comp v first (first + 1) mid (last - 1) with
  | none => none
  | some v1 => libstdcxx.unguardedPartition comp first (v1.length + 1) v1 (first + 1) last

/-- The loop of `std::__push_heap(first, holeIndex, topIndex, value, comp)`
(stl_heap.h, line 135). -/
def libstdcxx.pushHeap {α : Type} (comp : α → α → Bool) (first topIndex : Nat) (value : α) :
    Nat → List α → Nat → Option (List α)
  | 0, _, _ => none
  | fuel + 1, v, holeIndex =>
    let parent := (holeIndex - 1) / 2
    if topIndex < holeIndex then
      match v[first + parent]? with
      | none => none
      | some p =>
        if comp p value then
          match libstdcxx.assign v (first + holeIndex) p with
          | none => none
          | some v1 => libstdcxx.pushHeap comp first topIndex value fuel v1 parent
        else libstdcxx.assign v (first + holeIndex) value
    else libstdcxx.assign v (first + holeIndex) value

/-- The `while` loop of `std::__adjust_heap` (line 224): the vector and the hole
and second child afterwards. -/
def libstdcxx.adjustHeapLoop {α : Type} (comp : α → α → Bool) (first len : Nat) :
    Nat → List α → Nat → Nat → Option (List α × Nat × Nat)
  | 0, _, _, _ => none
  | fuel + 1, v, holeIndex, secondChild =>
    if secondChild < (len - 1) / 2 then
      let child := 2 * (secondChild + 1)
      match libstdcxx.compAt comp v (first + child) (first + (child - 1)) with
      | none => none
      | some lt =>
        let child1 := if lt then child - 1 else child
        match v[first + child1]? with
        | none => none
        | some c =>
          match libstdcxx.assign v (first + holeIndex) c with
          | none => none
          | some v1 => libstdcxx.adjustHeapLoop comp first len fuel v1 child1 child1
    else some (v, holeIndex, secondChild)

/-- `std::__adjust_heap(first, holeIndex, len, value, comp)` (line 224). -/
def libstdcxx.adjustHeap {α : Type}
    (comp : α → α → Bool) (v : List α) (first holeIndex len : Nat) (value : α) :
    Option (List α) :=
  match libstdcxx.adjustHeapLoop comp first len (len + 1) v holeIndex holeIndex with
  | none => none
  | some (v1, hole1, secondChild) =>
    if len % 2 = 0 ∧ 2 ≤ len ∧ secondChild = (len - 2) / 2 then
      let child := 2 * (secondChild + 1)
      match v1[first + (child - 1)]? with
      | none => none
      | some c =>
        match libstdcxx.assign v1 (first + hole1) c with
        | none => none
        | some v2 => libstdcxx.pushHeap comp first holeIndex value (len + 1) v2 (child - 1)
    else libstdcxx.pushHeap comp first holeIndex value (len + 1) v1 hole1

/-- `std::__pop_heap(first, last, result, comp)` (line 254). -/
def libstdcxx.popHeap {α : Type}
    (comp : α → α → Bool) (v : List α) (first last result : Nat) : Option (List α) :=
  match v[result]?, v[first]? with
  | some value, some top =>
    match libstdcxx.assign v result top with
    | none => none
    | some v1 => libstdcxx.adjustHeap comp v1 first 0 (last - first) value
  | _, _ => none

/-- The loop of `std::__make_heap` (line 340), from `parent` down to zero. -/
def libstdcxx.makeHeapLoop {α : Type}
    (comp : α → α → Bool) (first len : Nat) : Nat → List α → Option (List α)
  | 0, v =>
    match v[first]? with
    | none => none
    | some value => libstdcxx.adjustHeap comp v first 0 len value
  | parent + 1, v =>
    match v[first + (parent + 1)]? with
    | none => none
    | some value =>
      match libstdcxx.adjustHeap comp v first (parent + 1) len value with
      | none => none
      | some v1 => libstdcxx.makeHeapLoop comp first len parent v1

/-- `std::__make_heap(first, last, comp)` (line 340). -/
def libstdcxx.makeHeap {α : Type}
    (comp : α → α → Bool) (v : List α) (first last : Nat) : Option (List α) :=
  if last - first < 2 then some v
  else libstdcxx.makeHeapLoop comp first (last - first) ((last - first - 2) / 2) v

/-- `std::__sort_heap(first, last, comp)` (line 419): `count` is `last - first`. -/
def libstdcxx.sortHeap {α : Type}
    (comp : α → α → Bool) (first : Nat) : Nat → List α → Option (List α)
  | 0, v => some v
  | count + 1, v =>
    if 1 < count + 1 then
      match libstdcxx.popHeap comp v first (first + count) (first + count) with
      | none => none
      | some v1 => libstdcxx.sortHeap comp first count v1
    else some v

/-- The `for` loop of `std::__heap_select` (stl_algo.h, line 1625) over the
positions `i, i + 1, ...` below `last`. -/
def libstdcxx.heapSelectLoop {α : Type} (comp : α → α → Bool) (first middle : Nat) :
    List Nat → List α → Option (List α)
  | [], v => some v
  | i :: more, v =>
    match libstdcxx.compAt comp v i first with
    | none => none
    | some true =>
      match libstdcxx.popHeap comp v first middle i with
      | none => none
      | some v1 => libstdcxx.heapSelectLoop comp first middle more v1
    | some false => libstdcxx.heapSelectLoop comp first middle more v

/-- `std::__partial_sort(first, middle, last, comp)` (line 1895). -/
def libstdcxx.partialSort {α : Type} (comp : α → α → Bool) (v : List α) (first middle last : Nat) :
    Option (List α) :=
  match libstdcxx.makeHeap comp v first middle with
  | none => none
  | some v1 =>
    match libstdcxx.heapSelectLoop comp first middle
        ((List.range (last - middle)).map (fun k => middle + k)) v1 with
    | none => none
    | some v2 => libstdcxx.sortHeap comp first (middle - first) v2

/-- `std::__introsort_loop(first, last, depth_limit, comp)` (line 1908), by
recursion on `depth_limit`. -/
def libstdcxx.introsortLoop {α : Type}
    (comp : α → α → Bool) : Nat → List α → Nat → Nat → Option (List α)
  | 0, v, first, last =>
    if 16 < last - first then libstdcxx.partialSort comp v first last last else some v
  | depth + 1, v, first, last =>
    if 16 < last - first then
      match libstdcxx.unguardedPartitionPivot comp v first last with
      | none => none
      | some (cut, v1) =>
        match libstdcxx.introsortLoop comp depth v1 cut last with
        | none => none
        | some v2 => libstdcxx.introsortLoop comp depth v2 first cut
    else some v

/-- The loop of `std::__unguarded_linear_insert(last, comp)` (line 1782) for the
value `val` taken from the position `last`. -/
def libstdcxx.unguardedLinearInsert {α : Type} (comp : α → α → Bool) (val : α) :
    Nat → List α → Nat → Option (List α)
  | 0, _, _ => none
  | fuel + 1, v, last =>
    if last = 0 then none
    else
      match v[last - 1]? with
      | none => none
      | some nxt =>
        if comp val nxt then
          match libstdcxx.assign v last nxt with
          | none => none
          | some v1 => libstdcxx.unguardedLinearInsert comp val fuel v1 (last - 1)
        else libstdcxx.assign v last val

/-- One step of the `for` loop of `std::__insertion_sort` (line 1802) at the
position `i`. -/
def libstdcxx.insertionStep {α : Type}
    (comp : α → α → Bool) (v : List α) (first i : Nat) : Option (List α) :=
  match v[i]?, v[first]? with
  | some val, some front =>
    if comp val front then
      some (v.take first ++ val :: ((v.drop first).take (i - first)) ++ v.drop (i + 1))
    else libstdcxx.unguardedLinearInsert comp val (v.length + 1) v i
  | _, _ => none

/-- The `for` loop of `std::__insertion_sort` over the positions still to do. -/
def libstdcxx.insertionLoop {α : Type}
    (comp : α → α → Bool) (first : Nat) : List Nat → List α → Option (List α)
  | [], v => some v
  | i :: more, v =>
    match libstdcxx.insertionStep comp v first i with
    | none => none
    | some v1 => libstdcxx.insertionLoop comp first more v1

/-- `std::__insertion_sort(first, last, comp)` (line 1802). -/
def libstdcxx.insertionSort {α : Type}
    (comp : α → α → Bool) (v : List α) (first last : Nat) : Option (List α) :=
  if first = last then some v
  else libstdcxx.insertionLoop comp first ((List.range (last - first - 1)).map (fun k => first + 1 + k)) v

/-- The `for` loop of `std::__unguarded_insertion_sort` (line 1826). -/
def libstdcxx.unguardedInsertionLoop {α : Type}
    (comp : α → α → Bool) : List Nat → List α → Option (List α)
  | [], v => some v
  | i :: more, v =>
    match v[i]? with
    | none => none
    | some val =>
      match libstdcxx.unguardedLinearInsert comp val (v.length + 1) v i with
      | none => none
      | some v1 => libstdcxx.unguardedInsertionLoop comp more v1

/-- `std::__final_insertion_sort(first, last, comp)` (line 1844). -/
def libstdcxx.finalInsertionSort {α : Type} (comp : α → α → Bool) (v : List α) (first last : Nat) :
    Option (List α) :=
  if 16 < last - first then
    match libstdcxx.insertionSort comp v first (first + 16) with
    | none => none
    | some v1 =>
      libstdcxx.unguardedInsertionLoop comp
        ((List.range (last - (first + 16))).map (fun k => first + 16 + k)) v1
  else libstdcxx.insertionSort comp v first last

/-- `std::sort(v.begin(), v.end(), comp)` as libstdc++ implements it
(`std::__sort`, stl_algo.h line 1932). -/
def libstdcxx.sort {α : Type} (comp : α → α → Bool) (v : List α) : Option (List α) :=
  if v.length = 0 then some v
  else
    match libstdcxx.introsortLoop comp (libstdcxx.lg v.length * 2) v 0 v.length with
    | none => none
    | some v1 => libstdcxx.finalInsertionSort comp v1 0 v.length

/-- The vector `courses` of `printCourseList` after the `sort` call
(lines 228-233), with `std::sort` as libstdc++ implements it. -/
def sortedCoursesLibstdcxx (t : HashTable) : Option (List Course) :=
  match getAllCourses t with
  | none => none
  | some courses => libstdcxx.sort courseLess courses

/-- Seventeen courses with the same `courseNumber` `A` and the names `A` to
`Q`, in that order. -/
def equalKeyCourses : List Course :=
  (List.range 17).map (fun i => { courseNumber := [65], courseName := [Fin.ofNat (65 + i)],
                                  prereqList := [] })

/-- The line `a b,X`. -/
def lineAB : Str := [97, 32, 98, 44, 88]

/-- The course that the line `a b,X` is parsed into: the number `A B` and the
name `X`. -/
def cAB : Course := { courseNumber := [65, 32, 66], courseName := [88], prereqList := [] }

/-! ## The hash function -/

theorem sumLoop_eq (key : Str) (sum : Int) (hs : sum ≤ INT_MAX) :
    hashKey.sumLoop sum key =
      if sum + (byteSum key : Int) ≤ INT_MAX then some (sum + (byteSum key : Int)) else none := by
  induction key generalizing sum with
  | nil => simp [hashKey.sumLoop, byteSum, hs]
  | cons ch rest ih =>
    have hb : byteSum (ch :: rest) = ch.val + byteSum rest := by simp [byteSum]
    rw [hashKey.sumLoop, hb]
    by_cases h1 : sum + (ch.val : Int) ≤ INT_MAX
    · rw [if_pos h1, ih _ h1]
      push_cast
      by_cases h2 : sum + (ch.val : Int) + (byteSum rest : Int) ≤ INT_MAX
      · rw [if_pos h2, if_pos (by omega)]
        congr 1
        omega
      · rw [if_neg h2, if_neg (by omega)]
    · rw [if_neg h1, if_neg]
      push_cast
      omega

theorem hashKey_eq_of_fits (tableSize : Int) (key : Str) (hpos : 0 < tableSize)
    (hfit : (byteSum key : Int) ≤ INT_MAX) :
    hashKey tableSize key = some ((byteSum key : Int) % tableSize) := by
  unfold hashKey
  rw [sumLoop_eq _ _ (by decide)]
  simp only [zero_add, if_pos hfit]
  rw [if_neg (by omega)]
  congr 1
  exact Int.tmod_eq_emod (by omega) (by omega)

theorem hashKey_eq_none_of_overflow (tableSize : Int) (key : Str)
    (hover : INT_MAX < (byteSum key : Int)) : hashKey tableSize key = none := by
  unfold hashKey
  rw [sumLoop_eq _ _ (by decide)]
  simp only [zero_add]
  rw [if_neg (by omega)]

theorem hashKey_some (tableSize : Int) (key : Str) (h : Int) (hpos : 0 < tableSize)
    (hk : hashKey tableSize key = some h) :
    (byteSum key : Int) ≤ INT_MAX ∧ h = (byteSum key : Int) % tableSize ∧
      0 ≤ h ∧ h < tableSize := by
  by_cases hfit : (byteSum key : Int) ≤ INT_MAX
  · rw [hashKey_eq_of_fits tableSize key hpos hfit] at hk
    have hh : (byteSum key : Int) % tableSize = h := Option.some.inj hk
    refine ⟨hfit, hh.symm, ?_, ?_⟩
    · rw [← hh]; exact Int.emod_nonneg _ (by omega)
    · rw [← hh]; exact Int.emod_lt_of_pos _ hpos
  · rw [hashKey_eq_none_of_overflow tableSize key (by omega)] at hk
    cases hk

/-! ## The table after a sequence of insertions -/

theorem appendNode_eq (chain : List Course) (c : Course) :
    appendNode chain c = chain ++ [c] := by
  induction chain with
  | nil => rfl
  | cons node next ih => simp [appendNode, ih]

theorem findInChain_eq (chain : List Course) (k : Str) :
    findInChain chain k = firstMatch chain k := by
  induction chain with
  | nil => rfl
  | cons node next ih =>
    by_cases h : node.courseNumber = k
    · simp [findInChain, firstMatch, h]
    · simp only [findInChain, firstMatch, if_neg h, List.find?_cons, decide_eq_false h]
      exact ih

theorem new_eq_tableOf (tableSize : Int) : HashTable.new tableSize = tableOf tableSize [] := by
  unfold HashTable.new tableOf
  congr 1
  apply List.ext_getElem?
  intro j
  by_cases hj : j < tableSize.toNat
  · simp [List.getElem?_replicate, hj, bucketContents]
  · have hn : (List.range tableSize.toNat)[j]? = none := by
      apply List.getElem?_eq_none
      simp only [List.length_range]
      omega
    simp [List.getElem?_replicate, hj, hn]

theorem bucketAt_tableOf (tableSize : Int) (cs : List Course) (h : Int)
    (h0 : 0 ≤ h) (h1 : h < tableSize) :
    bucketAt (tableOf tableSize cs).buckets h = some (bucketContents tableSize cs h.toNat) := by
  unfold bucketAt tableOf
  rw [if_neg (by omega)]
  have hlt : h.toNat < tableSize.toNat := by omega
  simp [hlt]

theorem bucketContents_append (tableSize : Int) (cs : List Course) (c : Course) (h : Int)
    (h0 : 0 ≤ h) (hk : hashKey tableSize c.courseNumber = some h) (j : Nat) :
    bucketContents tableSize (cs ++ [c]) j =
      if h.toNat = j then bucketContents tableSize cs j ++ [c]
      else bucketContents tableSize cs j := by
  unfold bucketContents
  rw [List.filter_append]
  by_cases hj : h.toNat = j
  · have : h = (j : Int) := by omega
    simp [hk, hj, this]
  · have : ¬ h = (j : Int) := by omega
    simp [hk, hj, this]

theorem insertCourse_tableOf (tableSize : Int) (cs : List Course) (c : Course) (h : Int)
    (hpos : 0 < tableSize) (hk : hashKey tableSize c.courseNumber = some h) :
    insertCourse (tableOf tableSize cs) c = some (tableOf tableSize (cs ++ [c])) := by
  obtain ⟨-, -, h0, h1⟩ := hashKey_some tableSize c.courseNumber h hpos hk
  have hb := bucketAt_tableOf tableSize cs h h0 h1
  unfold insertCourse
  have ht : (tableOf tableSize cs).tableSize = tableSize := rfl
  rw [ht, hk]
  simp only [hb]
  congr 1
  unfold tableOf
  congr 1
  apply List.ext_getElem?
  intro j
  have hlt : h.toNat < tableSize.toNat := by omega
  rw [List.getElem?_set, appendNode_eq]
  simp only [List.length_map, List.length_range, List.getElem?_map]
  by_cases hj : h.toNat = j
  · subst hj
    simp [hlt, List.getElem?_range, bucketContents_append tableSize cs c h h0 hk]
  · rw [if_neg hj]
    by_cases hjn : j < tableSize.toNat
    · simp [List.getElem?_range hjn, bucketContents_append tableSize cs c h h0 hk, hj]
    · have hn : (List.range tableSize.toNat)[j]? = none := by
        apply List.getElem?_eq_none
        simp only [List.length_range]
        omega
      simp [hn]

theorem insertAll_tableOf (tableSize : Int) (hpos : 0 < tableSize) (cs pre : List Course)
    (t : HashTable) (ht : insertAll (tableOf tableSize pre) cs = some t) :
    t = tableOf tableSize (pre ++ cs) := by
  induction cs generalizing pre with
  | nil => simpa [insertAll] using ht.symm
  | cons c cs ih =>
    rw [insertAll] at ht
    cases hk : hashKey tableSize c.courseNumber with
    | none =>
      have : insertCourse (tableOf tableSize pre) c = none := by
        unfold insertCourse
        have ht2 : (tableOf tableSize pre).tableSize = tableSize := rfl
        rw [ht2, hk]
      rw [this] at ht
      cases ht
    | some h =>
      rw [insertCourse_tableOf tableSize pre c h hpos hk] at ht
      have := ih (pre ++ [c]) ht
      simpa using this

theorem insertAll_new (tableSize : Int) (hpos : 0 < tableSize) (cs : List Course)
    (t : HashTable) (ht : insertAll (HashTable.new tableSize) cs = some t) :
    t = tableOf tableSize cs := by
  rw [new_eq_tableOf] at ht
  simpa using insertAll_tableOf tableSize hpos cs [] t ht

theorem insertAll_tableOf_of_fits (tableSize : Int) (hpos : 0 < tableSize)
    (cs pre : List Course)
    (hfit : ∀ c ∈ cs, (byteSum c.courseNumber : Int) ≤ INT_MAX) :
    insertAll (tableOf tableSize pre) cs = some (tableOf tableSize (pre ++ cs)) := by
  induction cs generalizing pre with
  | nil => simp [insertAll]
  | cons c cs ih =>
    have hk := hashKey_eq_of_fits tableSize c.courseNumber hpos (hfit c (by simp))
    rw [insertAll, insertCourse_tableOf tableSize pre c _ hpos hk]
    simp only
    rw [ih (pre ++ [c]) (fun d hd => hfit d (by simp [hd]))]
    simp

/-- Every sequence of courses whose course numbers have a byte sum within `int`
can be inserted into a fresh table: no call is undefined. -/
theorem insertAll_new_of_fits (tableSize : Int) (hpos : 0 < tableSize) (cs : List Course)
    (hfit : ∀ c ∈ cs, (byteSum c.courseNumber : Int) ≤ INT_MAX) :
    insertAll (HashTable.new tableSize) cs = some (tableOf tableSize cs) := by
  rw [new_eq_tableOf]
  simpa using insertAll_tableOf_of_fits tableSize hpos cs [] hfit

theorem insertAll_fits (tableSize : Int) (cs : List Course)
    (t t0 : HashTable) (ht : insertAll t0 cs = some t) (hs : t0.tableSize = tableSize) :
    ∀ c ∈ cs, ∃ h, hashKey tableSize c.courseNumber = some h := by
  induction cs generalizing t0 with
  | nil => simp
  | cons c cs ih =>
    rw [insertAll] at ht
    cases hi : insertCourse t0 c with
    | none => rw [hi] at ht; cases ht
    | some t1 =>
      rw [hi] at ht
      have hk : ∃ h, hashKey tableSize c.courseNumber = some h := by
        unfold insertCourse at hi
        rw [hs] at hi
        cases hk : hashKey tableSize c.courseNumber with
        | none => rw [hk] at hi; cases hi
        | some h => exact ⟨h, rfl⟩
      have hs1 : t1.tableSize = tableSize := by
        unfold insertCourse at hi
        rw [hs] at hi
        obtain ⟨h, hk⟩ := hk
        rw [hk] at hi
        simp only at hi
        cases hb : bucketAt t0.buckets h with
        | none => rw [hb] at hi; cases hi
        | some chain =>
          rw [hb] at hi
          simp only [Option.some.injEq] at hi
          rw [← hi]
      intro d hd
      rcases List.mem_cons.mp hd with rfl | hd
      · exact hk
      · exact ih t1 ht hs1 d hd

theorem getAllCourses_loop_tableOf (tableSize : Int) (cs : List Course)
    (idx : List Nat) (all : List Course) (hidx : ∀ i ∈ idx, i < tableSize.toNat) :
    getAllCourses.loop (tableOf tableSize cs) idx all =
      some (all ++ idx.flatMap (bucketContents tableSize cs)) := by
  induction idx generalizing all with
  | nil => simp [getAllCourses.loop]
  | cons i more ih =>
    have hi : i < tableSize.toNat := hidx i (by simp)
    have hb := bucketAt_tableOf tableSize cs (i : Int) (by omega) (by omega)
    rw [getAllCourses.loop, hb]
    simp only [Int.toNat_ofNat]
    rw [ih _ (fun j hj => hidx j (by simp [hj]))]
    simp

theorem getAllCourses_tableOf (tableSize : Int) (cs : List Course) :
    getAllCourses (tableOf tableSize cs) =
      some ((List.range tableSize.toNat).flatMap (bucketContents tableSize cs)) := by
  unfold getAllCourses
  have ht : (tableOf tableSize cs).tableSize = tableSize := rfl
  rw [ht, getAllCourses_loop_tableOf tableSize cs _ [] (fun i hi => List.mem_range.mp hi)]
  simp

theorem findCourse_tableOf (tableSize : Int) (hpos : 0 < tableSize) (cs : List Course)
    (k : Str) (h : Int) (hk : hashKey tableSize k = some h) :
    findCourse (tableOf tableSize cs) k = some (firstMatch cs k) := by
  obtain ⟨-, -, h0, h1⟩ := hashKey_some tableSize k h hpos hk
  unfold findCourse
  have ht : (tableOf tableSize cs).tableSize = tableSize := rfl
  rw [ht, hk]
  simp only [bucketAt_tableOf tableSize cs h h0 h1, findInChain_eq]
  congr 1
  unfold firstMatch bucketContents
  rw [List.find?_filter]
  congr 1
  funext c
  by_cases hc : c.courseNumber = k
  · have h2 : (h.toNat : Int) = h := by omega
    simp [hc, hk, h2]
  · simp [hc]

theorem findCourse_tableOf_none (tableSize : Int) (cs : List Course)
    (k : Str) (hk : hashKey tableSize k = none) :
    findCourse (tableOf tableSize cs) k = none := by
  unfold findCourse
  have ht : (tableOf tableSize cs).tableSize = tableSize := rfl
  rw [ht, hk]

theorem firstMatch_split (cs pre post : List Course) (c : Course) (k : Str)
    (hcs : cs = pre ++ c :: post) (hc : c.courseNumber = k)
    (hpre : ∀ d ∈ pre, d.courseNumber ≠ k) : firstMatch cs k = some c := by
  subst hcs
  unfold firstMatch
  induction pre with
  | nil => simp [hc]
  | cons d pre ih =>
    have hd : d.courseNumber ≠ k := hpre d (by simp)
    simp only [List.cons_append, List.find?_cons, decide_eq_false hd]
    exact ih (fun e he => hpre e (by simp [he]))

theorem firstMatch_eq_none (cs : List Course) (k : Str) :
    firstMatch cs k = none ↔ ∀ d ∈ cs, d.courseNumber ≠ k := by
  unfold firstMatch
  simp [List.find?_eq_none]

/-! ## The enumeration is a rearrangement of the inserted courses -/

theorem flatMap_bucketContents_perm (tableSize : Int) (cs : List Course) (n : Nat) :
    ((List.range n).flatMap (bucketContents tableSize cs)).Perm
      (cs.filter (fun c => (List.range n).any
        (fun i => hashKey tableSize c.courseNumber == some (i : Int)))) := by
  induction n with
  | zero => simp
  | succ n ih =>
    rw [List.range_succ, List.flatMap_append]
    simp only [List.flatMap_cons, List.flatMap_nil, List.append_nil]
    set p : Course → Bool := fun c => (List.range n).any
        (fun i => hashKey tableSize c.courseNumber == some (i : Int)) with hp
    set q : Course → Bool := fun c => hashKey tableSize c.courseNumber == some (n : Int) with hq
    have hpq : (fun c : Course => (List.range n ++ [n]).any
        (fun i => hashKey tableSize c.courseNumber == some (i : Int))) = fun c => p c || q c := by
      funext c
      simp [hp, hq, List.any_append]
    rw [hpq]
    have hdisj : ∀ c, q c = true → p c = false := by
      intro c hc
      simp only [hq, beq_iff_eq] at hc
      simp only [hp, hc, List.any_eq_false, List.mem_range, beq_iff_eq, Option.some.injEq]
      intro i hi
      omega
    have h1 : (cs.filter (fun c => p c || q c)).Perm (cs.filter p ++ cs.filter q) := by
      clear ih hpq
      induction cs with
      | nil => simp
      | cons c cs ihc =>
        by_cases hqc : q c = true
        · have hpc := hdisj c hqc
          simp only [List.filter_cons, hqc, hpc, Bool.false_or, if_true]
          refine (List.Perm.cons c ihc).trans ?_
          exact List.perm_middle.symm
        · have hqc2 : q c = false := by simpa using hqc
          by_cases hpc : p c = true
          · simp only [List.filter_cons, hqc2, hpc, Bool.or_false, if_true, List.cons_append]
            exact List.Perm.cons c ihc
          · have hpc2 : p c = false := by simpa using hpc
            simp only [List.filter_cons, hqc2, hpc2, Bool.or_false]
            exact ihc
    exact (List.Perm.append_right _ ih).trans h1.symm

theorem getAll_perm (tableSize : Int) (hpos : 0 < tableSize) (cs : List Course)
    (hk : ∀ c ∈ cs, ∃ h, hashKey tableSize c.courseNumber = some h) :
    ((List.range tableSize.toNat).flatMap (bucketContents tableSize cs)).Perm cs := by
  refine (flatMap_bucketContents_perm tableSize cs tableSize.toNat).trans ?_
  have : cs.filter (fun c => (List.range tableSize.toNat).any
        (fun i => hashKey tableSize c.courseNumber == some (i : Int))) = cs := by
    rw [List.filter_eq_self]
    intro c hc
    obtain ⟨h, hh⟩ := hk c hc
    obtain ⟨-, -, h0, h1⟩ := hashKey_some tableSize c.courseNumber h hpos hh
    simp only [List.any_eq_true, List.mem_range, beq_iff_eq]
    exact ⟨h.toNat, by omega, by rw [hh]; congr 1; omega⟩
  rw [this]

/-! ## The string order and the comparator of the listing -/

theorem strLt_irrefl (a : Str) : strLt a a = false := by
  induction a with
  | nil => rfl
  | cons x xs ih => simp [strLt, ih]

theorem strLt_trans (a b c : Str) (hab : strLt a b = true) (hbc : strLt b c = true) :
    strLt a c = true := by
  induction a generalizing b c with
  | nil =>
    cases b with
    | nil => simp [strLt] at hab
    | cons y ys =>
      cases c with
      | nil => simp [strLt] at hbc
      | cons z zs => simp [strLt]
  | cons x xs ih =>
    cases b with
    | nil => simp [strLt] at hab
    | cons y ys =>
      cases c with
      | nil => simp [strLt] at hbc
      | cons z zs =>
        simp only [strLt] at hab hbc ⊢
        by_cases hxy : x < y
        · by_cases hyz : y < z
          · simp [lt_trans hxy hyz]
          · simp only [hyz, if_false] at hbc
            by_cases hzy : z < y
            · simp [hzy] at hbc
            · have : y = z := le_antisymm (not_lt.mp hzy) (not_lt.mp hyz)
              subst this
              simp [hxy]
        · simp only [hxy, if_false] at hab
          by_cases hyx : y < x
          · simp [hyx] at hab
          · have hxy2 : x = y := le_antisymm (not_lt.mp hyx) (not_lt.mp hxy)
            subst hxy2
            simp only [hyx, if_false] at hab
            by_cases hxz : x < z
            · simp [hxz]
            · simp only [hxz, if_false] at hbc ⊢
              by_cases hzx : z < x
              · simp [hzx] at hbc
              · simp only [hzx, if_false] at hbc ⊢
                exact ih ys zs hab hbc

theorem strLt_total (a b : Str) (hab : strLt a b = false) (hba : strLt b a = false) :
    a = b := by
  induction a generalizing b with
  | nil =>
    cases b with
    | nil => rfl
    | cons y ys => simp [strLt] at hab
  | cons x xs ih =>
    cases b with
    | nil => simp [strLt] at hba
    | cons y ys =>
      simp only [strLt] at hab hba
      by_cases hxy : x < y
      · simp [hxy] at hab
      · by_cases hyx : y < x
        · simp [hyx] at hba
        · have : x = y := le_antisymm (not_lt.mp hyx) (not_lt.mp hxy)
          subst this
          simp only [hxy, if_false] at hab hba
          rw [ih ys hab hba]

theorem courseLess_strictWeakOrder : StrictWeakOrder courseLess where
  irrefl a := strLt_irrefl a.courseNumber
  trans a b c hab hbc := strLt_trans _ _ _ hab hbc
  incomp_trans a b c hab hba hbc hcb := by
    unfold courseLess at *
    have h1 : a.courseNumber = b.courseNumber := strLt_total _ _ hab hba
    have h2 : b.courseNumber = c.courseNumber := strLt_total _ _ hbc hcb
    rw [h1, h2]
    exact ⟨strLt_irrefl _, strLt_irrefl _⟩

/-! ## Insertion sort meets the contract of `std::sort` -/

theorem swo_asymm {comp : Course → Course → Bool} (hc : StrictWeakOrder comp)
    (a b : Course) (hab : comp a b = true) : comp b a = false := by
  by_contra hba
  have hba2 : comp b a = true := by simpa using hba
  have := hc.trans a b a hab hba2
  rw [hc.irrefl a] at this
  cases this

theorem swo_not_lt_trans {comp : Course → Course → Bool} (hc : StrictWeakOrder comp)
    (a b c : Course) (hba : comp b a = false) (hcb : comp c b = false) :
    comp c a = false := by
  by_contra hca
  have hca2 : comp c a = true := by simpa using hca
  by_cases hab : comp a b = true
  · have := hc.trans c a b hca2 hab
    rw [hcb] at this
    cases this
  · have hab2 : comp a b = false := by simpa using hab
    by_cases hbc : comp b c = true
    · have := hc.trans b c a hbc hca2
      rw [hba] at this
      cases this
    · have hbc2 : comp b c = false := by simpa using hbc
      have := (hc.incomp_trans a b c hab2 hba hbc2 hcb).2
      rw [hca2] at this
      cases this

theorem insertSorted_perm (comp : Course → Course → Bool) (x : Course) (l : List Course) :
    (insertSorted comp x l).Perm (x :: l) := by
  induction l with
  | nil => simp [insertSorted]
  | cons y ys ih =>
    unfold insertSorted
    by_cases h : comp x y = true
    · simp [h]
    · simp only [h]
      exact (List.Perm.cons y ih).trans (List.Perm.swap x y ys)

theorem insertSorted_sorted {comp : Course → Course → Bool} (hc : StrictWeakOrder comp)
    (x : Course) (l : List Course) (hl : l.Pairwise (fun a b => comp b a = false)) :
    (insertSorted comp x l).Pairwise (fun a b => comp b a = false) := by
  induction l with
  | nil => simp [insertSorted]
  | cons y ys ih =>
    rw [List.pairwise_cons] at hl
    unfold insertSorted
    by_cases h : comp x y = true
    · simp only [h, if_true]
      refine List.Pairwise.cons ?_ (List.Pairwise.cons hl.1 hl.2)
      intro b hb
      rcases List.mem_cons.mp hb with rfl | hb
      · exact swo_asymm hc x b h
      · exact swo_not_lt_trans hc x y b (swo_asymm hc x y h) (hl.1 b hb)
    · have h2 : comp x y = false := by simpa using h
      simp only [h]
      refine List.Pairwise.cons ?_ (ih hl.2)
      intro b hb
      have hb2 : b ∈ x :: ys := (insertSorted_perm comp x ys).subset hb
      rcases List.mem_cons.mp hb2 with rfl | hb2
      · exact h2
      · exact hl.1 b hb2

theorem insertionSortBy_isStdSort : IsStdSort insertionSortBy := by
  intro comp hc l
  induction l with
  | nil => simp [insertionSortBy]
  | cons x xs ih =>
    unfold insertionSortBy
    exact ⟨(insertSorted_perm comp x _).trans (List.Perm.cons x ih.1),
      insertSorted_sorted hc x _ ih.2⟩

/-! ## A key too long for the `int` accumulator -/

theorem byteSum_replicate (n : Nat) (b : Byte) : byteSum (List.replicate n b) = n * b.val := by
  simp [byteSum, List.map_replicate, List.sum_replicate]

theorem hashKey_longKey (tableSize : Int) :
    hashKey tableSize (List.replicate 8421505 (255 : Byte)) = none := by
  apply hashKey_eq_none_of_overflow
  rw [byteSum_replicate]
  decide

/-! ## C1: insert/find round trip -/

/-- C1, amended.  In a table built by `insertCourse` calls from a fresh table
with a positive bucket count, after `insertCourse(c)` of a course whose
`courseNumber` is already normalized (`toUpper(trim(courseNumber))` is the
`courseNumber` itself) and is not the `courseNumber` of a course stored
before, `findCourse(normalize(c.courseNumber))` returns a course equal to `c`
in all three fields. -/
theorem C1_insert_find_roundtrip (tableSize : Int) (cs : List Course) (t t1 : HashTable)
    (c : Course) (hpos : 0 < tableSize)
    (ht : insertAll (HashTable.new tableSize) cs = some t)
    (hins : insertCourse t c = some t1)
    (hnorm : normalize c.courseNumber = c.courseNumber)
    (hnew : ∀ d ∈ cs, d.courseNumber ≠ c.courseNumber) :
    findCourse t1 (normalize c.courseNumber) = some (some c) := by
  have hall : insertAll (HashTable.new tableSize) (cs ++ [c]) = some t1 := by
    have h1 := insertAll_new tableSize hpos cs t ht
    rw [new_eq_tableOf] at ht ⊢
    subst h1
    have hf : ∀ d ∈ cs, ∃ h, hashKey tableSize d.courseNumber = some h :=
      insertAll_fits tableSize cs _ _ ht rfl
    have hfit : ∀ d ∈ cs, (byteSum d.courseNumber : Int) ≤ INT_MAX := by
      intro d hd
      obtain ⟨h, hh⟩ := hf d hd
      exact (hashKey_some tableSize _ h hpos hh).1
    have hk : ∃ h, hashKey tableSize c.courseNumber = some h := by
      cases hk : hashKey tableSize c.courseNumber with
      | none =>
        unfold insertCourse at hins
        have hs : (tableOf tableSize cs).tableSize = tableSize := rfl
        rw [hs, hk] at hins
        cases hins
      | some h => exact ⟨h, rfl⟩
    obtain ⟨h, hk⟩ := hk
    rw [insertCourse_tableOf tableSize cs c h hpos hk] at hins
    rw [← Option.some.inj hins]
    apply insertAll_tableOf_of_fits tableSize hpos (cs ++ [c]) []
    intro d hd
    rcases List.mem_append.mp hd with hd | hd
    · exact hfit d hd
    · rw [List.mem_singleton.mp hd]
      exact (hashKey_some tableSize _ h hpos hk).1
  have h2 := insertAll_new tableSize hpos (cs ++ [c]) t1 hall
  obtain ⟨h, hk⟩ := insertAll_fits tableSize (cs ++ [c]) t1 _ hall rfl c (by simp)
  rw [hnorm, h2, findCourse_tableOf tableSize hpos (cs ++ [c]) c.courseNumber h hk]
  congr 1
  exact firstMatch_split (cs ++ [c]) cs [] c c.courseNumber rfl rfl hnew

/-- Witness of C1: `CSCI300` inserted into the 20-bucket table that holds
`CSCI100`. -/
theorem C1_insert_find_roundtrip_witness :
    (0 : Int) < 20 ∧
    insertAll (HashTable.new 20) [cCSCI100] = some (tableOf 20 [cCSCI100]) ∧
    insertCourse (tableOf 20 [cCSCI100]) cCSCI300 = some (tableOf 20 [cCSCI100, cCSCI300]) ∧
    normalize cCSCI300.courseNumber = cCSCI300.courseNumber ∧
    (∀ d ∈ [cCSCI100], d.courseNumber ≠ cCSCI300.courseNumber) ∧
    findCourse (tableOf 20 [cCSCI100, cCSCI300]) (normalize cCSCI300.courseNumber) =
      some (some cCSCI300) :=
  ⟨by decide, by decide, by decide, by decide, by decide,
    C1_insert_find_roundtrip 20 [cCSCI100] (tableOf 20 [cCSCI100])
      (tableOf 20 [cCSCI100, cCSCI300]) cCSCI300
      (by decide) (by decide) (by decide) (by decide) (by decide)⟩

/-- C1 as stated fails.  First two conjuncts: the course with `courseNumber`
`"a"` inserted into a fresh 20-bucket table is not found under `normalize("a")`,
which is `"A"`.  Last two conjuncts: with `("A", "X")` stored, after inserting
`("A", "Y")` the lookup of `normalize("A")` returns the course named `"X"`, not
the inserted one. -/
theorem C1_counterexample :
    (insertCourse (HashTable.new 20) ⟨[97], [], []⟩).bind
        (fun t1 => findCourse t1 (normalize [97])) = some none ∧
    (insertCourse (HashTable.new 20) ⟨[97], [], []⟩).bind
        (fun t1 => findCourse t1 (normalize [97])) ≠ some (some ⟨[97], [], []⟩) ∧
    ((insertAll (HashTable.new 20) [⟨[65], [88], []⟩]).bind
        (fun t => (insertCourse t ⟨[65], [89], []⟩).bind
          (fun t1 => findCourse t1 (normalize [65])))) = some (some ⟨[65], [88], []⟩) ∧
    ((insertAll (HashTable.new 20) [⟨[65], [88], []⟩]).bind
        (fun t => (insertCourse t ⟨[65], [89], []⟩).bind
          (fun t1 => findCourse t1 (normalize [65])))) ≠ some (some ⟨[65], [89], []⟩) := by
  decide

/-! ## C2: first-match lookup -/

/-- C2, amended.  For a positive bucket count, courses `cs` inserted in that
order into a fresh table, and a key `k`: `findCourse(k)` returns the first
course of `cs` whose `courseNumber` is byte for byte `k` (courses after it with
the same number never replace or hide it); when no course of `cs` has that
number it returns not-found, provided the byte sum of `k` fits in a signed
32-bit `int`; and it returns not-found only when no course of `cs` has that
number. -/
theorem C2_first_match (tableSize : Int) (cs : List Course) (t : HashTable) (k : Str)
    (hpos : 0 < tableSize) (ht : insertAll (HashTable.new tableSize) cs = some t) :
    (∀ pre c post, cs = pre ++ c :: post → c.courseNumber = k →
        (∀ d ∈ pre, d.courseNumber ≠ k) → findCourse t k = some (some c)) ∧
    ((byteSum k : Int) ≤ INT_MAX → (∀ d ∈ cs, d.courseNumber ≠ k) →
        findCourse t k = some none) ∧
    (findCourse t k = some none → ∀ d ∈ cs, d.courseNumber ≠ k) := by
  have h1 := insertAll_new tableSize hpos cs t ht
  have hf := insertAll_fits tableSize cs t _ ht rfl
  subst h1
  refine ⟨?_, ?_, ?_⟩
  · intro pre c post hcs hc hpre
    obtain ⟨h, hh⟩ := hf c (by rw [hcs]; simp)
    rw [hc] at hh
    rw [findCourse_tableOf tableSize hpos cs k h hh,
      firstMatch_split cs pre post c k hcs hc hpre]
  · intro hfit hno
    rw [findCourse_tableOf tableSize hpos cs k _ (hashKey_eq_of_fits tableSize k hpos hfit),
      (firstMatch_eq_none cs k).mpr hno]
  · intro hfind
    cases hk : hashKey tableSize k with
    | none =>
      rw [findCourse_tableOf_none tableSize cs k hk] at hfind
      cases hfind
    | some h =>
      rw [findCourse_tableOf tableSize hpos cs k h hk] at hfind
      exact (firstMatch_eq_none cs k).mp (Option.some.inj hfind)

/-- Witness of C2: with `CSCI100`, `CSCI300` and a second `CSCI100` (renamed
`"X"`) inserted in that order, the lookup of `CSCI100` returns the first one. -/
theorem C2_first_match_witness :
    (0 : Int) < 20 ∧
    insertAll (HashTable.new 20) [cCSCI100, cCSCI300, { cCSCI100 with courseName := [88] }] =
      some (tableOf 20 [cCSCI100, cCSCI300, { cCSCI100 with courseName := [88] }]) ∧
    findCourse (tableOf 20 [cCSCI100, cCSCI300, { cCSCI100 with courseName := [88] }])
      sCSCI100 = some (some cCSCI100) :=
  ⟨by decide, by decide,
    (C2_first_match 20 [cCSCI100, cCSCI300, { cCSCI100 with courseName := [88] }]
      (tableOf 20 [cCSCI100, cCSCI300, { cCSCI100 with courseName := [88] }]) sCSCI100
      (by decide) (by decide)).1 [] cCSCI100 [cCSCI300, { cCSCI100 with courseName := [88] }]
      rfl rfl (by simp)⟩

/-- C2 as stated fails: on the fresh 20-bucket table (no course inserted) the
key of 8421505 bytes `0xFF` has byte sum 2147483775, above the largest `int`;
`hashKey` overflows and `findCourse` has no defined result, where the claim
promises not-found. -/
theorem C2_counterexample :
    insertAll (HashTable.new 20) [] = some (HashTable.new 20) ∧
    byteSum (List.replicate 8421505 (255 : Byte)) = 2147483775 ∧
    findCourse (HashTable.new 20) (List.replicate 8421505 (255 : Byte)) = none ∧
    findCourse (HashTable.new 20) (List.replicate 8421505 (255 : Byte)) ≠
      some (firstMatch [] (List.replicate 8421505 (255 : Byte))) := by
  have hnone : findCourse (HashTable.new 20) (List.replicate 8421505 (255 : Byte)) = none := by
    rw [new_eq_tableOf]
    exact findCourse_tableOf_none 20 [] _ (hashKey_longKey 20)
  refine ⟨rfl, ?_, hnone, ?_⟩
  · rw [byteSum_replicate]
    rfl
  · rw [hnone]
    exact fun h => Option.noConfusion h

/-! ## C3: sorted listing -/

/-- C3.  For every sorting function that meets the contract of `std::sort`,
every positive bucket count and every table built by inserting the courses `cs`
into a fresh table, `printCourseList` produces a sequence (its sorted vector
`courses`, printed line by line) that is non-decreasing by `courseNumber` in the
lexicographic byte order and is a permutation of `cs`. -/
theorem C3_sorted_listing (sort : (Course → Course → Bool) → List Course → List Course)
    (tableSize : Int) (cs : List Course) (t : HashTable)
    (hsort : IsStdSort sort) (hpos : 0 < tableSize)
    (ht : insertAll (HashTable.new tableSize) cs = some t) :
    ∃ courses, sortedCourses sort t = some courses ∧
      printCourseList sort t =
        some (courses.map (fun c => c.courseNumber ++ [44, 32] ++ c.courseName)) ∧
      courses.Pairwise (fun a b =>
        strLt a.courseNumber b.courseNumber = true ∨ a.courseNumber = b.courseNumber) ∧
      courses.Perm cs := by
  have h1 := insertAll_new tableSize hpos cs t ht
  have hf := insertAll_fits tableSize cs t _ ht rfl
  subst h1
  obtain ⟨hperm, hsorted⟩ := hsort courseLess courseLess_strictWeakOrder
    ((List.range tableSize.toNat).flatMap (bucketContents tableSize cs))
  refine ⟨sort courseLess ((List.range tableSize.toNat).flatMap (bucketContents tableSize cs)),
    ?_, ?_, ?_, ?_⟩
  · simp [sortedCourses, getAllCourses_tableOf]
  · simp [printCourseList, sortedCourses, getAllCourses_tableOf]
  · refine hsorted.imp ?_
    intro a b hba
    unfold courseLess at hba
    by_cases hab : strLt a.courseNumber b.courseNumber = true
    · exact Or.inl hab
    · exact Or.inr (strLt_total _ _ (by simpa using hab) hba)
  · exact hperm.trans (getAll_perm tableSize hpos cs hf)

/-- Witness of C3: the three courses of the end-to-end scenario, inserted as
`MATH201`, `CSCI300`, `CSCI100`, and insertion sort as the sorting function. -/
theorem C3_sorted_listing_witness :
    IsStdSort insertionSortBy ∧ (0 : Int) < 20 ∧
    insertAll (HashTable.new 20) [cMATH201, cCSCI300, cCSCI100] =
      some (tableOf 20 [cMATH201, cCSCI300, cCSCI100]) ∧
    ∃ courses, sortedCourses insertionSortBy (tableOf 20 [cMATH201, cCSCI300, cCSCI100]) =
        some courses ∧
      printCourseList insertionSortBy (tableOf 20 [cMATH201, cCSCI300, cCSCI100]) =
        some (courses.map (fun c => c.courseNumber ++ [44, 32] ++ c.courseName)) ∧
      courses.Pairwise (fun a b =>
        strLt a.courseNumber b.courseNumber = true ∨ a.courseNumber = b.courseNumber) ∧
      courses.Perm [cMATH201, cCSCI300, cCSCI100] :=
  ⟨insertionSortBy_isStdSort, by decide, by decide,
    C3_sorted_listing insertionSortBy 20 [cMATH201, cCSCI300, cCSCI100]
      (tableOf 20 [cMATH201, cCSCI300, cCSCI100]) insertionSortBy_isStdSort
      (by decide) (by decide)⟩

/-! ## C4: enumeration order -/

/-- C4.  For a positive bucket count `B` and courses `cs` inserted in that
order into a fresh table, `getAllCourses` returns the concatenation, for the
bucket indices `0 .. B - 1` in increasing order, of the courses of `cs` whose
`hashKey` is that index, in the order of `cs`; its length is the length of
`cs`.  Insertion links the new node at the tail of its chain. -/
theorem C4_enumeration_order (tableSize : Int) (cs : List Course) (t : HashTable)
    (hpos : 0 < tableSize) (ht : insertAll (HashTable.new tableSize) cs = some t) :
    (∃ all, getAllCourses t = some all ∧
      all = (List.range tableSize.toNat).flatMap (fun i =>
        cs.filter (fun c => hashKey tableSize c.courseNumber == some (i : Int))) ∧
      all.length = cs.length) ∧
    (∀ chain c, appendNode chain c = chain ++ [c]) := by
  have h1 := insertAll_new tableSize hpos cs t ht
  have hf := insertAll_fits tableSize cs t _ ht rfl
  subst h1
  refine ⟨⟨_, getAllCourses_tableOf tableSize cs, rfl, ?_⟩, appendNode_eq⟩
  exact (getAll_perm tableSize hpos cs hf).length_eq

/-- Witness of C4: three buckets and the courses `"A"`, `"D"`, `"B"` (byte sums
65, 68, 66, buckets 2, 2, 0); the enumeration is `"B"`, `"A"`, `"D"`. -/
theorem C4_enumeration_order_witness :
    (0 : Int) < 3 ∧
    insertAll (HashTable.new 3) [⟨[65], [], []⟩, ⟨[68], [], []⟩, ⟨[66], [], []⟩] =
      some (tableOf 3 [⟨[65], [], []⟩, ⟨[68], [], []⟩, ⟨[66], [], []⟩]) ∧
    getAllCourses (tableOf 3 [⟨[65], [], []⟩, ⟨[68], [], []⟩, ⟨[66], [], []⟩]) =
      some [⟨[66], [], []⟩, ⟨[65], [], []⟩, ⟨[68], [], []⟩] ∧
    (∃ all, getAllCourses (tableOf 3 [⟨[65], [], []⟩, ⟨[68], [], []⟩, ⟨[66], [], []⟩]) =
        some all ∧
      all = (List.range (3 : Int).toNat).flatMap (fun i =>
        [(⟨[65], [], []⟩ : Course), ⟨[68], [], []⟩, ⟨[66], [], []⟩].filter
          (fun c => hashKey 3 c.courseNumber == some (i : Int))) ∧
      all.length = [(⟨[65], [], []⟩ : Course), ⟨[68], [], []⟩, ⟨[66], [], []⟩].length) :=
  ⟨by decide, by decide, by decide,
    (C4_enumeration_order 3 [⟨[65], [], []⟩, ⟨[68], [], []⟩, ⟨[66], [], []⟩]
      (tableOf 3 [⟨[65], [], []⟩, ⟨[68], [], []⟩, ⟨[66], [], []⟩])
      (by decide) (by decide)).1⟩

/-! ## C5: bucket invariant -/

theorem bucketInv_new (tableSize : Int) (hpos : 0 < tableSize) :
    BucketInv (HashTable.new tableSize) where
  size_pos := hpos
  length_eq := by simp [HashTable.new]
  placed := by
    intro i chain hi c hc
    simp only [HashTable.new, List.getElem?_replicate] at hi
    by_cases hlt : i < tableSize.toNat
    · rw [if_pos hlt] at hi
      rw [← Option.some.inj hi] at hc
      cases hc
    · rw [if_neg hlt] at hi
      cases hi

theorem bucketInv_insertCourse (t t1 : HashTable) (c : Course) (hinv : BucketInv t)
    (hins : insertCourse t c = some t1) : BucketInv t1 := by
  unfold insertCourse at hins
  cases hk : hashKey t.tableSize c.courseNumber with
  | none => rw [hk] at hins; cases hins
  | some h =>
    rw [hk] at hins
    simp only at hins
    cases hb : bucketAt t.buckets h with
    | none => rw [hb] at hins; cases hins
    | some chain =>
      rw [hb] at hins
      simp only [Option.some.injEq] at hins
      subst hins
      obtain ⟨-, -, h0, h1⟩ := hashKey_some t.tableSize c.courseNumber h hinv.size_pos hk
      have hb2 : t.buckets[h.toNat]? = some chain := by
        unfold bucketAt at hb
        rw [if_neg (by omega)] at hb
        exact hb
      refine ⟨hinv.size_pos, ?_, ?_⟩
      · simpa using hinv.length_eq
      · intro i chain1 hi d hd
        simp only [List.getElem?_set] at hi
        by_cases hhi : h.toNat = i
        · rw [if_pos hhi] at hi
          by_cases hlen : h.toNat < t.buckets.length
          · rw [if_pos hlen] at hi
            rw [← Option.some.inj hi, appendNode_eq] at hd
            rcases List.mem_append.mp hd with hd | hd
            · exact hinv.placed i chain (hhi ▸ hb2) d hd
            · rw [List.mem_singleton.mp hd]
              show hashKey t.tableSize c.courseNumber = some (i : Int)
              rw [hk]
              congr 1
              omega
          · rw [if_neg hlen] at hi
            cases hi
        · rw [if_neg hhi] at hi
          exact hinv.placed i chain1 hi d hd

theorem getElem?_tableOf (tableSize : Int) (cs : List Course) (j : Nat) (chain : List Course)
    (hj : (tableOf tableSize cs).buckets[j]? = some chain) :
    j < tableSize.toNat ∧ chain = bucketContents tableSize cs j := by
  unfold tableOf at hj
  simp only [List.getElem?_map] at hj
  by_cases hlt : j < tableSize.toNat
  · rw [List.getElem?_range hlt] at hj
    exact ⟨hlt, (Option.some.inj hj).symm⟩
  · have hn : (List.range tableSize.toNat)[j]? = none := by
      apply List.getElem?_eq_none
      simp only [List.length_range]
      omega
    rw [hn] at hj
    cases hj

/-- C5.  For a positive bucket count: the fresh table satisfies the bucket
invariant and `insertCourse` preserves it; in the table built by inserting the
courses `cs` every one of them sits in exactly one bucket, whose index is
`hashKey(courseNumber)`, which is the byte sum of `courseNumber` modulo the
bucket count; and the result of `findCourse(k)` depends on no other bucket than
the one with index `hashKey(k)`. -/
theorem C5_bucket_invariant (tableSize : Int) (hpos : 0 < tableSize) :
    BucketInv (HashTable.new tableSize) ∧
    (∀ t c t1, BucketInv t → insertCourse t c = some t1 → BucketInv t1) ∧
    (∀ cs t, insertAll (HashTable.new tableSize) cs = some t →
      BucketInv t ∧
      ∀ c ∈ cs, ∃ i : Nat, i < tableSize.toNat ∧
        hashKey tableSize c.courseNumber = some (i : Int) ∧
        (i : Int) = (byteSum c.courseNumber : Int) % tableSize ∧
        (∃ chain, t.buckets[i]? = some chain ∧ c ∈ chain) ∧
        ∀ j chain, t.buckets[j]? = some chain → c ∈ chain → j = i) ∧
    (∀ t1 t2 k h, t1.tableSize = tableSize → t2.tableSize = tableSize →
      hashKey tableSize k = some h → bucketAt t1.buckets h = bucketAt t2.buckets h →
      findCourse t1 k = findCourse t2 k) := by
  refine ⟨bucketInv_new tableSize hpos, ?_, ?_, ?_⟩
  · intro t c t1 hinv hins
    exact bucketInv_insertCourse t t1 c hinv hins
  · intro cs t ht
    have hinv : BucketInv t := by
      have key : ∀ (cs : List Course) (t0 t : HashTable), BucketInv t0 →
          insertAll t0 cs = some t → BucketInv t := by
        intro cs
        induction cs with
        | nil =>
          intro t0 t h0 h
          simp only [insertAll, Option.some.injEq] at h
          exact h ▸ h0
        | cons c cs ih =>
          intro t0 t h0 h
          rw [insertAll] at h
          cases hi : insertCourse t0 c with
          | none => rw [hi] at h; cases h
          | some t1 =>
            rw [hi] at h
            exact ih t1 t (bucketInv_insertCourse t0 t1 c h0 hi) h
      exact key cs _ t (bucketInv_new tableSize hpos) ht
    refine ⟨hinv, ?_⟩
    have h1 := insertAll_new tableSize hpos cs t ht
    have hf := insertAll_fits tableSize cs t _ ht rfl
    subst h1
    intro c hc
    obtain ⟨h, hh⟩ := hf c hc
    obtain ⟨-, hmod, h0, hlt⟩ := hashKey_some tableSize c.courseNumber h hpos hh
    have hcast : ((h.toNat : Nat) : Int) = h := by omega
    refine ⟨h.toNat, by omega, by rw [hh, hcast], by rw [hcast]; exact hmod, ?_, ?_⟩
    · refine ⟨bucketContents tableSize cs h.toNat, ?_, ?_⟩
      · have := bucketAt_tableOf tableSize cs h h0 hlt
        unfold bucketAt at this
        rw [if_neg (by omega)] at this
        exact this
      · unfold bucketContents
        rw [List.mem_filter]
        exact ⟨hc, by simp [hh, hcast]⟩
    · intro j chain hj hcj
      obtain ⟨-, rfl⟩ := getElem?_tableOf tableSize cs j chain hj
      unfold bucketContents at hcj
      rw [List.mem_filter] at hcj
      have := hcj.2
      simp only [hh, beq_iff_eq, Option.some.injEq] at this
      omega
  · intro t1 t2 k h ht1 ht2 hk hb
    unfold findCourse
    rw [ht1, ht2, hk]
    simp only [hb]

/-- Witness of C5: the 20-bucket table and the courses `CSCI100`, `CSCI300`
inserted into it. -/
theorem C5_bucket_invariant_witness :
    (0 : Int) < 20 ∧ BucketInv (HashTable.new 20) ∧
    insertAll (HashTable.new 20) [cCSCI100, cCSCI300] = some (tableOf 20 [cCSCI100, cCSCI300]) ∧
    BucketInv (tableOf 20 [cCSCI100, cCSCI300]) ∧
    hashKey 20 cCSCI300.courseNumber = some 17 ∧
    (tableOf 20 [cCSCI100, cCSCI300]).buckets[17]? = some [cCSCI300] :=
  ⟨by decide, (C5_bucket_invariant 20 (by decide)).1, by decide,
    ((C5_bucket_invariant 20 (by decide)).2.2.1 [cCSCI100, cCSCI300]
      (tableOf 20 [cCSCI100, cCSCI300]) (by decide)).1, by decide, by decide⟩

/-! ## C6: anagram collision -/

theorem hashKey_eq_of_byteSum_eq (tableSize : Int) (a b : Str) (h : byteSum a = byteSum b) :
    hashKey tableSize a = hashKey tableSize b := by
  unfold hashKey
  rw [sumLoop_eq a 0 (by decide), sumLoop_eq b 0 (by decide), h]

/-- C6.  For every positive bucket count, two strings whose bytes are a
permutation of each other have the same `hashKey` (when the byte sum fits in an
`int`, both calls return the same bucket index); in particular
`hashKey("AB") = hashKey("BA")`, a bucket index. -/
theorem C6_anagram_collision (tableSize : Int) (a b : Str) (hpos : 0 < tableSize)
    (hperm : a.Perm b) :
    hashKey tableSize a = hashKey tableSize b ∧
    ((byteSum a : Int) ≤ INT_MAX →
      ∃ h, hashKey tableSize a = some h ∧ hashKey tableSize b = some h) ∧
    hashKey tableSize [65, 66] = hashKey tableSize [66, 65] ∧
    ∃ h, hashKey tableSize [65, 66] = some h ∧ hashKey tableSize [66, 65] = some h := by
  have hab : hashKey tableSize a = hashKey tableSize b := by
    apply hashKey_eq_of_byteSum_eq
    unfold byteSum
    exact (hperm.map _).sum_eq
  refine ⟨hab, ?_, ?_, ?_⟩
  · intro hfit
    exact ⟨_, hashKey_eq_of_fits tableSize a hpos hfit,
      hab ▸ hashKey_eq_of_fits tableSize a hpos hfit⟩
  · apply hashKey_eq_of_byteSum_eq
    rfl
  · exact ⟨_, hashKey_eq_of_fits tableSize [65, 66] hpos (by decide),
      hashKey_eq_of_fits tableSize [66, 65] hpos (by decide)⟩

/-- Witness of C6: `"CSCI300"` and `"003ICSC"` in a 20-bucket table, and the
common bucket 11 of `"AB"` and `"BA"`. -/
theorem C6_anagram_collision_witness :
    (0 : Int) < 20 ∧
    List.Perm [67, 83, 67, 73, 51, 48, 48] ([48, 48, 51, 73, 67, 83, 67] : Str) ∧
    hashKey 20 [67, 83, 67, 73, 51, 48, 48] = hashKey 20 [48, 48, 51, 73, 67, 83, 67] ∧
    hashKey 20 [67, 83, 67, 73, 51, 48, 48] = some 17 ∧
    hashKey 20 [65, 66] = some 11 ∧ hashKey 20 [66, 65] = some 11 :=
  ⟨by decide, by decide,
    (C6_anagram_collision 20 [67, 83, 67, 73, 51, 48, 48] [48, 48, 51, 73, 67, 83, 67]
      (by decide) (by decide)).1, by decide, by decide, by decide⟩

/-! ## C7: the key normalizer -/

theorem find_first_not_of_none (s : Str) (h : find_first_not_of s = none) :
    ∀ c ∈ s, isTrimChar c = true := by
  induction s with
  | nil => simp
  | cons a rest ih =>
    unfold find_first_not_of at h
    by_cases ha : isTrimChar a = true
    · rw [if_pos ha] at h
      have hr : find_first_not_of rest = none := by
        cases hf : find_first_not_of rest with
        | none => rfl
        | some i => rw [hf] at h; cases h
      intro c hc
      rcases List.mem_cons.mp hc with rfl | hc
      · exact ha
      · exact ih hr c hc
    · rw [if_neg ha] at h
      cases h

theorem find_first_not_of_some (s : Str) (i : Nat) (h : find_first_not_of s = some i) :
    (∃ a, s[i]? = some a ∧ isTrimChar a = false) ∧
      ∀ k, k < i → ∀ c, s[k]? = some c → isTrimChar c = true := by
  induction s generalizing i with
  | nil => cases h
  | cons a rest ih =>
    unfold find_first_not_of at h
    by_cases ha : isTrimChar a = true
    · rw [if_pos ha] at h
      cases hf : find_first_not_of rest with
      | none => rw [hf] at h; cases h
      | some i0 =>
        rw [hf] at h
        simp only [Option.map_some', Option.some.injEq] at h
        subst h
        obtain ⟨h1, h2⟩ := ih i0 hf
        refine ⟨by simpa using h1, ?_⟩
        intro k hk c hc
        cases k with
        | zero =>
          simp only [List.getElem?_cons_zero, Option.some.injEq] at hc
          exact hc ▸ ha
        | succ k =>
          simp only [List.getElem?_cons_succ] at hc
          exact h2 k (by omega) c hc
    · rw [if_neg ha] at h
      simp only [Option.some.injEq] at h
      subst h
      refine ⟨⟨a, by simp, by simpa using ha⟩, ?_⟩
      intro k hk
      omega

theorem find_last_not_of_none (s : Str) (h : find_last_not_of s = none) :
    ∀ c ∈ s, isTrimChar c = true := by
  induction s with
  | nil => simp
  | cons a rest ih =>
    unfold find_last_not_of at h
    cases hf : find_last_not_of rest with
    | some i => rw [hf] at h; cases h
    | none =>
      rw [hf] at h
      simp only at h
      by_cases ha : isTrimChar a = true
      · intro c hc
        rcases List.mem_cons.mp hc with rfl | hc
        · exact ha
        · exact ih hf c hc
      · rw [if_neg ha] at h
        cases h

theorem find_last_not_of_some (s : Str) (j : Nat) (h : find_last_not_of s = some j) :
    (∃ b, s[j]? = some b ∧ isTrimChar b = false) ∧
      ∀ k, j < k → ∀ c, s[k]? = some c → isTrimChar c = true := by
  induction s generalizing j with
  | nil => cases h
  | cons a rest ih =>
    unfold find_last_not_of at h
    cases hf : find_last_not_of rest with
    | some j0 =>
      rw [hf] at h
      simp only [Option.some.injEq] at h
      subst h
      obtain ⟨h1, h2⟩ := ih j0 hf
      refine ⟨by simpa using h1, ?_⟩
      intro k hk c hc
      cases k with
      | zero => omega
      | succ k =>
        simp only [List.getElem?_cons_succ] at hc
        exact h2 k (by omega) c hc
    | none =>
      rw [hf] at h
      simp only at h
      by_cases ha : isTrimChar a = true
      · rw [if_pos ha] at h
        cases h
      · rw [if_neg ha] at h
        simp only [Option.some.injEq] at h
        subst h
        refine ⟨⟨a, by simp, by simpa using ha⟩, ?_⟩
        intro k hk c hc
        cases k with
        | zero => omega
        | succ k =>
          simp only [List.getElem?_cons_succ] at hc
          exact find_last_not_of_none rest hf c (List.mem_iff_getElem?.mpr ⟨k, hc⟩)

/-- When `find_first_not_of` finds a byte, so does `find_last_not_of`: the last
branch of `trim` is never taken. -/
theorem find_last_not_of_isSome (s : Str) (i : Nat) (h : find_first_not_of s = some i) :
    ∃ j, find_last_not_of s = some j ∧ i ≤ j := by
  obtain ⟨⟨a, ha, hna⟩, -⟩ := find_first_not_of_some s i h
  cases hl : find_last_not_of s with
  | none =>
    have := find_last_not_of_none s hl a (List.mem_iff_getElem?.mpr ⟨i, ha⟩)
    rw [hna] at this
    cases this
  | some j =>
    refine ⟨j, rfl, ?_⟩
    by_contra hij
    have := (find_last_not_of_some s j hl).2 i (by omega) a ha
    rw [hna] at this
    cases this

theorem trim_eq_nil_of_all (s : Str) (h : ∀ c ∈ s, isTrimChar c = true) : trim s = [] := by
  unfold trim
  cases hf : find_first_not_of s with
  | none => rfl
  | some i =>
    obtain ⟨⟨a, ha, hna⟩, -⟩ := find_first_not_of_some s i hf
    have := h a (List.mem_iff_getElem?.mpr ⟨i, ha⟩)
    rw [hna] at this
    cases this

/-- The shape of `trim s`: `s` is `l ++ trim s ++ r` with `l` and `r` made of
trimmed characters only, and `trim s` neither starts nor ends with one. -/
theorem trim_spec (s : Str) :
    ∃ l r, s = l ++ trim s ++ r ∧ (∀ c ∈ l, isTrimChar c = true) ∧
      (∀ c ∈ r, isTrimChar c = true) ∧
      (∀ a, (trim s).head? = some a → isTrimChar a = false) ∧
      (∀ b, (trim s).getLast? = some b → isTrimChar b = false) := by
  cases hf : find_first_not_of s with
  | none =>
    have hall := find_first_not_of_none s hf
    have ht : trim s = [] := trim_eq_nil_of_all s hall
    exact ⟨s, [], by simp [ht], hall, by simp, by simp [ht], by simp [ht]⟩
  | some i =>
    obtain ⟨j, hl, hij⟩ := find_last_not_of_isSome s i hf
    obtain ⟨⟨a, ha, hna⟩, hbefore⟩ := find_first_not_of_some s i hf
    obtain ⟨⟨b, hb, hnb⟩, hafter⟩ := find_last_not_of_some s j hl
    have hjlt : j < s.length := (List.getElem?_eq_some.mp hb).1
    have ht : trim s = (s.drop i).take (j - i + 1) := by
      unfold trim
      rw [hf]
      simp only [hl, substr]
    have hlen : (trim s).length = j - i + 1 := by
      rw [ht, List.length_take, List.length_drop]
      omega
    refine ⟨s.take i, s.drop (j + 1), ?_, ?_, ?_, ?_, ?_⟩
    · rw [ht]
      have h1 : s.drop (j + 1) = (s.drop i).drop (j - i + 1) := by
        rw [List.drop_drop]
        congr 1
        omega
      rw [h1, List.append_assoc, List.take_append_drop, List.take_append_drop]
    · intro c hc
      obtain ⟨k, hk⟩ := List.mem_iff_getElem?.mp hc
      rw [List.getElem?_take] at hk
      by_cases hki : k < i
      · rw [if_pos hki] at hk
        exact hbefore k hki c hk
      · rw [if_neg hki] at hk
        cases hk
    · intro c hc
      obtain ⟨k, hk⟩ := List.mem_iff_getElem?.mp hc
      rw [List.getElem?_drop] at hk
      exact hafter (j + 1 + k) (by omega) c hk
    · intro a1 ha1
      rw [List.head?_eq_getElem?, ht, List.getElem?_take, if_pos (by omega),
        List.getElem?_drop] at ha1
      simp only [Nat.add_zero] at ha1
      rw [ha] at ha1
      exact (Option.some.inj ha1) ▸ hna
    · intro b1 hb1
      rw [List.getLast?_eq_getElem?, hlen] at hb1
      rw [ht, List.getElem?_take, if_pos (by omega), List.getElem?_drop] at hb1
      have hidx : i + (j - i + 1 - 1) = j := by omega
      rw [hidx, hb] at hb1
      exact (Option.some.inj hb1) ▸ hnb

/-- C7.  `normalize(s)` is `toUpper(trim(s))`, defined for every string; `s` is
`l ++ trim(s) ++ r` where `l` and `r` consist of space, tab, carriage return and
newline only and `trim(s)` is empty or starts and ends with another byte;
`toUpper` keeps the length and maps the bytes `a..z` (97..122) to `A..Z`
(65..90), leaving every other byte unchanged; `normalize` of the empty string
and of a string of trimmed characters only is the empty string. -/
theorem C7_key_normalizer (s : Str) :
    normalize s = toUpper (trim s) ∧
    (∀ c : Byte, isTrimChar c = true ↔ (c = 32 ∨ c = 9 ∨ c = 13 ∨ c = 10)) ∧
    (∃ l r, s = l ++ trim s ++ r ∧ (∀ c ∈ l, isTrimChar c = true) ∧
      (∀ c ∈ r, isTrimChar c = true) ∧
      (∀ a, (trim s).head? = some a → isTrimChar a = false) ∧
      (∀ b, (trim s).getLast? = some b → isTrimChar b = false)) ∧
    (toUpper s).length = s.length ∧
    (∀ i : Nat, (toUpper s)[i]? = (s[i]?).map toupper) ∧
    (∀ c : Byte, (97 ≤ c.val ∧ c.val ≤ 122 → (toupper c).val = c.val - 32) ∧
      (¬ (97 ≤ c.val ∧ c.val ≤ 122) → toupper c = c)) ∧
    normalize [] = [] ∧
    ((∀ c ∈ s, isTrimChar c = true) → normalize s = []) := by
  refine ⟨rfl, ?_, trim_spec s, ?_, ?_, ?_, rfl, ?_⟩
  · intro c
    simp [isTrimChar, or_assoc]
  · simp [toUpper]
  · intro i
    simp [toUpper]
  · intro c
    constructor
    · intro h
      simp [toupper, h]
    · intro h
      simp [toupper, h]
  · intro h
    simp [normalize, trim_eq_nil_of_all s h, toUpper]

/-! ## C8: record parsing -/

theorem splitFields_ne_nil (delim : Byte) (r : Str) : splitFields delim r ≠ [] := by
  cases r with
  | nil => simp [splitFields]
  | cons c rest =>
    unfold splitFields
    by_cases hc : c = delim
    · simp [hc]
    · rw [if_neg hc]
      cases splitFields delim rest <;> simp

theorem splitFields_delim (delim : Byte) (rest : Str) :
    splitFields delim (delim :: rest) = [] :: splitFields delim rest := by
  rw [splitFields, if_pos rfl]

theorem splitFields_other (delim c : Byte) (rest field : Str) (more : List Str)
    (hc : c ≠ delim) (hrest : splitFields delim rest = field :: more) :
    splitFields delim (c :: rest) = (c :: field) :: more := by
  rw [splitFields, if_neg hc, hrest]

theorem scan_found (delim : Byte) (r tok r1 : Str)
    (h : getline.scan delim r = (tok, r1, true)) :
    splitFields delim r = tok :: splitFields delim r1 ∧ r1.length < r.length := by
  induction r generalizing tok with
  | nil => simp [getline.scan] at h
  | cons c rest ih =>
    unfold getline.scan at h
    by_cases hc : c = delim
    · rw [if_pos hc] at h
      simp only [Prod.mk.injEq, and_true] at h
      obtain ⟨h1, h2⟩ := h
      subst h1 h2 hc
      exact ⟨splitFields_delim c rest, by simp⟩
    · rw [if_neg hc] at h
      simp only [Prod.mk.injEq] at h
      obtain ⟨h1, h2, h3⟩ := h
      have hs : getline.scan delim rest = ((getline.scan delim rest).1, r1, true) := by
        rw [← h2, ← h3]
      obtain ⟨ih1, ih2⟩ := ih _ hs
      rw [← h1]
      exact ⟨splitFields_other delim c rest _ _ hc ih1, by simp only [List.length_cons]; omega⟩

theorem scan_not_found (delim : Byte) (r tok r1 : Str)
    (h : getline.scan delim r = (tok, r1, false)) :
    tok = r ∧ r1 = [] ∧ splitFields delim r = [r] := by
  induction r generalizing tok with
  | nil =>
    simp only [getline.scan, Prod.mk.injEq, and_true] at h
    simp [← h.1, ← h.2, splitFields]
  | cons c rest ih =>
    unfold getline.scan at h
    by_cases hc : c = delim
    · rw [if_pos hc] at h
      simp at h
    · rw [if_neg hc] at h
      simp only [Prod.mk.injEq] at h
      obtain ⟨h1, h2, h3⟩ := h
      have hs : getline.scan delim rest = ((getline.scan delim rest).1, r1, false) := by
        rw [← h2, ← h3]
      obtain ⟨ih1, ih2, ih3⟩ := ih _ hs
      refine ⟨?_, ih2, splitFields_other delim c rest _ _ hc ih3⟩
      rw [← h1, ih1]

theorem prereqsOfFields_cons (f : Str) (fs : List Str) :
    prereqsOfFields (f :: fs) =
      (if (toUpper (trim f)).isEmpty then [] else [toUpper (trim f)]) ++ prereqsOfFields fs := by
  unfold prereqsOfFields
  by_cases h : (toUpper (trim f)).isEmpty = true
  · simp [List.filter_cons, h]
  · simp [List.filter_cons, h]

theorem prereqLoop_eof (fuel : Nat) (r : Str) (failbit : Bool) (acc : List Str) :
    prereqLoop fuel { rest := r, eofbit := true, failbit := failbit } acc = acc := by
  cases fuel with
  | zero => rfl
  | succ n => simp [prereqLoop, getline]

/-- The loop over the prerequisites, run with enough fuel on a stream in good
state, collects the normalized non-empty fields of the unread text. -/
theorem prereqLoop_eq (fuel : Nat) (r : Str) (acc : List Str) (hfuel : r.length + 2 ≤ fuel) :
    prereqLoop fuel { rest := r, eofbit := false, failbit := false } acc =
      acc ++ prereqsOfFields (splitFields comma r) := by
  induction fuel generalizing r acc with
  | zero => omega
  | succ n ih =>
    unfold prereqLoop getline
    simp only [Bool.or_self, Bool.false_eq_true, if_false]
    rcases hs : getline.scan comma r with ⟨tok, r1, found⟩
    cases found with
    | true =>
      obtain ⟨h1, h2⟩ := scan_found comma r tok r1 hs
      simp only
      rw [ih r1 _ (by omega), h1, prereqsOfFields_cons]
      by_cases he : (toUpper (trim tok)).isEmpty = true
      · simp [he]
      · simp [he]
    | false =>
      obtain ⟨h1, h2, h3⟩ := scan_not_found comma r tok r1 hs
      subst h1 h2
      simp only
      by_cases htok : tok.isEmpty = true
      · rw [if_pos htok]
        simp only
        have : tok = [] := by simpa using htok
        subst this
        simp [splitFields, prereqsOfFields, trim, find_first_not_of, toUpper]
      · rw [if_neg htok]
        simp only
        rw [prereqLoop_eof, h3, prereqsOfFields_cons]
        by_cases he : (toUpper (trim tok)).isEmpty = true
        · simp [he, prereqsOfFields]
        · simp [he, prereqsOfFields]

/-- More fuel than `ss.rest.length + 2` does not change the result of the loop:
it ends because `getline` fails, not because the fuel runs out. -/
theorem prereqLoop_fuel (fuel : Nat) (r : Str) (acc : List Str) (hfuel : r.length + 2 ≤ fuel) :
    prereqLoop fuel { rest := r, eofbit := false, failbit := false } acc =
      prereqLoop (r.length + 2) { rest := r, eofbit := false, failbit := false } acc := by
  rw [prereqLoop_eq fuel r acc hfuel, prereqLoop_eq (r.length + 2) r acc (le_refl _)]

theorem parseLine_spec (line : Str) (c : Course) (h : parseLine line = some c) :
    ∃ f0 f1 more, splitFields comma line = f0 :: f1 :: more ∧
      c = { courseNumber := toUpper (trim f0), courseName := trim f1,
            prereqList := prereqsOfFields more } := by
  unfold parseLine getline at h
  simp only [StringStream.ofStr, Bool.or_self, Bool.false_eq_true, if_false] at h
  rcases hs : getline.scan comma line with ⟨tok, r1, found⟩
  rw [hs] at h
  cases found with
  | false =>
    simp only at h
    by_cases htok : tok.isEmpty = true
    · rw [if_pos htok] at h
      cases h
    · rw [if_neg htok] at h
      simp [getline] at h
  | true =>
    obtain ⟨h1, -⟩ := scan_found comma line tok r1 hs
    simp only [Bool.or_self, Bool.false_eq_true, if_false] at h
    rcases hs2 : getline.scan comma r1 with ⟨tok2, r2, found2⟩
    rw [hs2] at h
    cases found2 with
    | true =>
      obtain ⟨h2, -⟩ := scan_found comma r1 tok2 r2 hs2
      simp only [Option.some.injEq] at h
      refine ⟨tok, tok2, splitFields comma r2, by rw [h1, h2], ?_⟩
      rw [← h, prereqLoop_eq _ r2 [] (le_refl _)]
      simp
    | false =>
      obtain ⟨h2, h3, h4⟩ := scan_not_found comma r1 tok2 r2 hs2
      simp only at h
      by_cases htok : tok2.isEmpty = true
      · rw [if_pos htok] at h
        cases h
      · rw [if_neg htok] at h
        simp only [Option.some.injEq] at h
        refine ⟨tok, tok2, [], by rw [h1, h4, h2], ?_⟩
        rw [← h, prereqLoop_eof]
        simp [prereqsOfFields]

/-- C8.  For every line that `loadDataStructure` accepts (no `continue` is
taken, so that the course `c` is passed to `insertCourse`), the line is not
blank, the line trimmed has at least two comma-separated fields, and
`c` has `courseNumber = toUpper(trim(field 0))`, `courseName = trim(field 1)`,
unchanged in case, and `prereqList` the list, in field order, of
`toUpper(trim(f))` for the remaining fields `f`, without those that are empty
after normalization. -/
theorem C8_record_parsing (table : HashTable) (line : Str) (c : Course)
    (hparse : parseLine (trim line) = some c) :
    trim line ≠ [] ∧ processLine table line = insertCourse table c ∧
    ∃ f0 f1 more, splitFields comma (trim line) = f0 :: f1 :: more ∧
      c.courseNumber = toUpper (trim f0) ∧
      c.courseName = trim f1 ∧
      c.prereqList = (more.map (fun f => toUpper (trim f))).filter (fun p => !p.isEmpty) := by
  have hne : trim line ≠ [] := by
    intro h0
    rw [h0] at hparse
    simp [parseLine, getline, StringStream.ofStr, getline.scan] at hparse
  refine ⟨hne, ?_, ?_⟩
  · unfold processLine
    have : (trim line).isEmpty = false := by
      cases ht : trim line with
      | nil => exact absurd ht hne
      | cons a b => rfl
    simp only [this, hparse, Bool.false_eq_true, if_false]
  · obtain ⟨f0, f1, more, hsplit, hc⟩ := parseLine_spec (trim line) c hparse
    exact ⟨f0, f1, more, hsplit, by rw [hc], by rw [hc], by rw [hc]; rfl⟩

/-- Witness of C8: the line ` csci300 , Intro to Algorithms ,csci200, ,math201,`
gives `CSCI300`, `Intro to Algorithms` and the prerequisites `CSCI200`,
`MATH201`; the blank field and the empty trailing field are dropped. -/
theorem C8_record_parsing_witness :
    parseLine (trim sampleLine) = some sampleCourse ∧ trim sampleLine ≠ [] ∧
    processLine (HashTable.new 20) sampleLine = insertCourse (HashTable.new 20) sampleCourse ∧
    ∃ f0 f1 more, splitFields comma (trim sampleLine) = f0 :: f1 :: more ∧
      sampleCourse.courseNumber = toUpper (trim f0) ∧
      sampleCourse.courseName = trim f1 ∧
      sampleCourse.prereqList =
        (more.map (fun f => toUpper (trim f))).filter (fun p => !p.isEmpty) :=
  ⟨by decide, C8_record_parsing (HashTable.new 20) sampleLine sampleCourse (by decide)⟩

/-! ## C9: malformed lines are skipped -/

theorem parseLine_of_short (line : Str) (h : (splitFields comma line).length < 2) :
    parseLine line = none := by
  cases hp : parseLine line with
  | none => rfl
  | some c =>
    obtain ⟨f0, f1, more, hsplit, -⟩ := parseLine_spec line c hp
    rw [hsplit] at h
    simp only [List.length_cons] at h
    omega

/-- C9.  For every table and every line that is blank after trimming or has
fewer than two comma-separated fields, processing the line in
`loadDataStructure` inserts nothing and raises no error: the table afterwards
is the table before, with the same buckets, the same `getAllCourses` and the
same `findCourse` results, and a file made of that line alone loads with
success. -/
theorem C9_malformed_line_skip (table : HashTable) (line : Str)
    (h : trim line = [] ∨ (splitFields comma (trim line)).length < 2) :
    ∃ table1, processLine table line = some table1 ∧ table1 = table ∧
      table1.buckets = table.buckets ∧
      getAllCourses table1 = getAllCourses table ∧
      (∀ k, findCourse table1 k = findCourse table k) ∧
      loadDataStructure (some [line]) table = some (true, table) := by
  have hp : processLine table line = some table := by
    unfold processLine
    by_cases he : (trim line).isEmpty = true
    · simp only [he, if_true]
    · have hlen : (splitFields comma (trim line)).length < 2 := by
        rcases h with h | h
        · rw [h] at he
          simp at he
        · exact h
      simp only [he, parseLine_of_short (trim line) hlen, Bool.false_eq_true, if_false]
  refine ⟨table, hp, rfl, rfl, rfl, fun _ => rfl, ?_⟩
  simp [loadDataStructure, loadLines, hp]

/-- Witness of C9: the line `CSCI100` (one field) on the table that holds
`CSCI300`. -/
theorem C9_malformed_line_skip_witness :
    (trim sCSCI100 = [] ∨ (splitFields comma (trim sCSCI100)).length < 2) ∧
    ∃ table1, processLine (tableOf 20 [cCSCI300]) sCSCI100 = some table1 ∧
      table1 = tableOf 20 [cCSCI300] ∧
      table1.buckets = (tableOf 20 [cCSCI300]).buckets ∧
      getAllCourses table1 = getAllCourses (tableOf 20 [cCSCI300]) ∧
      (∀ k, findCourse table1 k = findCourse (tableOf 20 [cCSCI300]) k) ∧
      loadDataStructure (some [sCSCI100]) (tableOf 20 [cCSCI300]) =
        some (true, tableOf 20 [cCSCI300]) :=
  ⟨by decide, C9_malformed_line_skip (tableOf 20 [cCSCI300]) sCSCI100 (by decide)⟩

/-! ## Loading is a sequence of insertions -/

theorem parseLine_nil : parseLine [] = none := by
  simp [parseLine, getline, StringStream.ofStr, getline.scan]

theorem processLine_eq (table : HashTable) (line : Str) :
    processLine table line =
      match parseLine (trim line) with
      | none => some table
      | some c => insertCourse table c := by
  unfold processLine
  cases ht : trim line with
  | nil => simp [parseLine_nil]
  | cons a b => simp

theorem loadLines_eq_insertAll (table : HashTable) (lines : List Str) :
    loadLines table lines = insertAll table (parseAll lines) := by
  induction lines generalizing table with
  | nil => rfl
  | cons line more ih =>
    rw [loadLines, processLine_eq]
    unfold parseAll
    rw [List.filterMap_cons]
    cases hp : parseLine (trim line) with
    | none =>
      simp only
      exact ih table
    | some c =>
      simp only
      rw [insertAll]
      cases hi : insertCourse table c with
      | none => rfl
      | some t1 =>
        simp only
        exact ih t1

/-! ## C11: what the single-course query does to its input -/

theorem isspace_of_isTrimChar (c : Byte) (h : isTrimChar c = true) : isspace c = true := by
  simp only [isTrimChar, Bool.or_eq_true, beq_iff_eq] at h
  rcases h with ((h | h) | h) | h <;> subst h <;> decide

theorem dropWhile_all_append (p : Byte → Bool) (l rest : Str) (h : ∀ c ∈ l, p c = true) :
    (l ++ rest).dropWhile p = rest.dropWhile p := by
  induction l with
  | nil => rfl
  | cons a l ih =>
    have ha : p a = true := h a (by simp)
    simp only [List.cons_append, List.dropWhile_cons, ha, if_true]
    exact ih (fun c hc => h c (by simp [hc]))

theorem dropWhile_all (p : Byte → Bool) (l : Str) (h : ∀ c ∈ l, p c = true) :
    l.dropWhile p = [] := by
  have := dropWhile_all_append p l [] h
  simpa using this

theorem takeWhile_append_stop (q : Byte → Bool) (m rest : Str) (hm : ∀ c ∈ m, q c = true)
    (hr : ∀ c ∈ rest, q c = false) : (m ++ rest).takeWhile q = m := by
  induction m with
  | nil =>
    cases rest with
    | nil => rfl
    | cons b rest =>
      have hb : q b = false := hr b (by simp)
      simp [List.takeWhile_cons, hb]
  | cons a m ih =>
    have ha : q a = true := hm a (by simp)
    simp only [List.cons_append, List.takeWhile_cons, ha, if_true]
    rw [ih (fun c hc => hm c (by simp [hc]))]

/-- For a raw text that is one word between trimmed characters, `cin >> input`
reads what `trim` returns. -/
theorem cinExtract_eq_trim (r : Str) (hword : ∀ c ∈ trim r, isspace c = false) :
    cinExtract r = trim r := by
  obtain ⟨l, rr, hr, hl, hrr, -, -⟩ := trim_spec r
  have hl2 : ∀ c ∈ l, isspace c = true := fun c hc => isspace_of_isTrimChar c (hl c hc)
  have hrr2 : ∀ c ∈ rr, isspace c = true := fun c hc => isspace_of_isTrimChar c (hrr c hc)
  unfold cinExtract
  conv_lhs => rw [hr]
  rw [List.append_assoc, dropWhile_all_append isspace l _ hl2]
  cases hm : trim r with
  | nil =>
    simp only [List.nil_append]
    rw [dropWhile_all isspace rr hrr2]
    rfl
  | cons a m =>
    have ha : isspace a = false := hword a (by rw [hm]; simp)
    simp only [List.cons_append, List.dropWhile_cons, ha, Bool.false_eq_true, if_false]
    rw [← List.cons_append]
    apply takeWhile_append_stop
    · intro c hc
      have := hword c (by rw [hm]; exact hc)
      simp [this]
    · intro c hc
      simp [hrr2 c hc]

/-- C11, amended.  For every table and every raw query text `r` whose trimmed
form holds no whitespace byte (one word, possibly between blanks), the
single-course query returns the same result, found record or not-found, as
`findCourse(normalize(r))`.  In general the query looks up
`toUpper` of the first whitespace-delimited word of `r`: it upper-cases and
never trims. -/
theorem C11_query_normalization (table : HashTable) (r : Str)
    (hword : ∀ c ∈ trim r, isspace c = false) :
    singleCourseLookup table r = findCourse table (normalize r) ∧
    singleCourseQuery table r = printSingleCourse table (trim r) ∧
    (∀ table1 r1, singleCourseLookup table1 r1 = findCourse table1 (toUpper (cinExtract r1))) := by
  refine ⟨?_, ?_, fun _ _ => rfl⟩
  · unfold singleCourseLookup normalize
    rw [cinExtract_eq_trim r hword]
  · unfold singleCourseQuery
    rw [cinExtract_eq_trim r hword]

/-- Witness of C11: the raw text `  csci300` followed by a newline, on the
table that holds `CSCI100` and `CSCI300`. -/
theorem C11_query_normalization_witness :
    (∀ c ∈ trim [32, 32, 99, 115, 99, 105, 51, 48, 48, 10], isspace c = false) ∧
    singleCourseLookup (tableOf 20 [cCSCI100, cCSCI300])
      [32, 32, 99, 115, 99, 105, 51, 48, 48, 10] = some (some cCSCI300) ∧
    singleCourseLookup (tableOf 20 [cCSCI100, cCSCI300])
        [32, 32, 99, 115, 99, 105, 51, 48, 48, 10] =
      findCourse (tableOf 20 [cCSCI100, cCSCI300])
        (normalize [32, 32, 99, 115, 99, 105, 51, 48, 48, 10]) :=
  ⟨by rw [show trim [32, 32, 99, 115, 99, 105, 51, 48, 48, 10] =
        [99, 115, 99, 105, 51, 48, 48] from by decide]; simp [isspace],
    by decide,
    (C11_query_normalization (tableOf 20 [cCSCI100, cCSCI300])
      [32, 32, 99, 115, 99, 105, 51, 48, 48, 10]
      (by rw [show trim [32, 32, 99, 115, 99, 105, 51, 48, 48, 10] =
        [99, 115, 99, 105, 51, 48, 48] from by decide]; simp [isspace])).1⟩

/-- C11 as stated fails.  On the table loaded from the three lines of the
end-to-end scenario the raw query text `csci100 x` makes `cin >> input` read
`csci100`, so the query finds `CSCI100`, while `normalize` of the text is
`CSCI100 X` and `findCourse` of it returns not-found. -/
theorem C11_counterexample :
    loadDataStructure (some scenarioLines) (HashTable.new 20) =
      some (true, tableOf 20 [cCSCI100, cCSCI300, cMATH201]) ∧
    cinExtract [99, 115, 99, 105, 49, 48, 48, 32, 120] = [99, 115, 99, 105, 49, 48, 48] ∧
    normalize [99, 115, 99, 105, 49, 48, 48, 32, 120] = [67, 83, 67, 73, 49, 48, 48, 32, 88] ∧
    singleCourseLookup (tableOf 20 [cCSCI100, cCSCI300, cMATH201])
      [99, 115, 99, 105, 49, 48, 48, 32, 120] = some (some cCSCI100) ∧
    findCourse (tableOf 20 [cCSCI100, cCSCI300, cMATH201])
      (normalize [99, 115, 99, 105, 49, 48, 48, 32, 120]) = some none ∧
    singleCourseLookup (tableOf 20 [cCSCI100, cCSCI300, cMATH201])
        [99, 115, 99, 105, 49, 48, 48, 32, 120] ≠
      findCourse (tableOf 20 [cCSCI100, cCSCI300, cMATH201])
        (normalize [99, 115, 99, 105, 49, 48, 48, 32, 120]) :=
  ⟨by decide, by decide, by decide, by decide, by decide, by decide⟩

/-! ## C12: prerequisite rendering -/

theorem joinPrereqs_eq_intercalate (l : List Str) :
    joinPrereqs l = List.intercalate [44, 32] l := by
  induction l with
  | nil => rfl
  | cons p rest ih =>
    cases rest with
    | nil => simp [joinPrereqs, List.intercalate]
    | cons q more =>
      rw [joinPrereqs, ih]
      simp [List.intercalate, List.intersperse]

/-- C12.  For every found course (the lookup `findCourse(toUpper(input))` of
`printSingleCourse` returns `c`), the second line written is `Prerequisites: `
followed by a text that is exactly `None` when `prereqList` is empty and
otherwise the stored prerequisites in their stored order with `", "` between
consecutive ones and nothing after the last (`List.intercalate`). -/
theorem C12_prereq_rendering (table : HashTable) (input : Str) (c : Course)
    (hfound : findCourse table (toUpper input) = some (some c)) :
    ∃ text, printSingleCourse table input =
        some [c.courseNumber ++ [44, 32] ++ c.courseName,
          [80, 114, 101, 114, 101, 113, 117, 105, 115, 105, 116, 101, 115, 58, 32] ++ text] ∧
      (c.prereqList = [] → text = [78, 111, 110, 101]) ∧
      (c.prereqList ≠ [] → text = List.intercalate [44, 32] c.prereqList) := by
  refine ⟨if c.prereqList.isEmpty then [78, 111, 110, 101] else joinPrereqs c.prereqList,
    ?_, ?_, ?_⟩
  · unfold printSingleCourse
    simp only [hfound]
    rfl
  · intro h
    simp [h]
  · intro h
    have : c.prereqList.isEmpty = false := by
      cases hl : c.prereqList with
      | nil => exact absurd hl h
      | cons a b => rfl
    simp only [this, Bool.false_eq_true, if_false]
    exact joinPrereqs_eq_intercalate _

/-- Witness of C12: the query `csci300` on the table that holds `sampleCourse`
(prerequisites `CSCI200`, `MATH201`) prints `Prerequisites: CSCI200, MATH201`;
the query `CSCI100` on the table that holds `cCSCI100` prints
`Prerequisites: None`. -/
theorem C12_prereq_rendering_witness :
    findCourse (tableOf 20 [sampleCourse]) (toUpper [99, 115, 99, 105, 51, 48, 48]) =
      some (some sampleCourse) ∧
    printSingleCourse (tableOf 20 [sampleCourse]) [99, 115, 99, 105, 51, 48, 48] =
      some [sampleCourse.courseNumber ++ [44, 32] ++ sampleCourse.courseName,
        [80, 114, 101, 114, 101, 113, 117, 105, 115, 105, 116, 101, 115, 58, 32] ++
          [67, 83, 67, 73, 50, 48, 48, 44, 32, 77, 65, 84, 72, 50, 48, 49]] ∧
    printSingleCourse (tableOf 20 [cCSCI100]) sCSCI100 =
      some [cCSCI100.courseNumber ++ [44, 32] ++ cCSCI100.courseName,
        [80, 114, 101, 114, 101, 113, 117, 105, 115, 105, 116, 101, 115, 58, 32] ++
          [78, 111, 110, 101]] ∧
    ∃ text, printSingleCourse (tableOf 20 [sampleCourse]) [99, 115, 99, 105, 51, 48, 48] =
        some [sampleCourse.courseNumber ++ [44, 32] ++ sampleCourse.courseName,
          [80, 114, 101, 114, 101, 113, 117, 105, 115, 105, 116, 101, 115, 58, 32] ++ text] ∧
      (sampleCourse.prereqList = [] → text = [78, 111, 110, 101]) ∧
      (sampleCourse.prereqList ≠ [] →
        text = List.intercalate [44, 32] sampleCourse.prereqList) :=
  ⟨by decide, by decide, by decide,
    C12_prereq_rendering (tableOf 20 [sampleCourse]) [99, 115, 99, 105, 51, 48, 48]
      sampleCourse (by decide)⟩

/-! ## C13: the end-to-end scenario -/

theorem scenario_sorted_unique (l : List Course)
    (hperm : l.Perm [cCSCI100, cCSCI300, cMATH201])
    (hsorted : l.Pairwise (fun a b => courseLess b a = false)) :
    l = [cCSCI100, cCSCI300, cMATH201] := by
  have hlen := hperm.length_eq
  match l, hlen with
  | [x, y, z], _ =>
    have hnodup : [x, y, z].Nodup := hperm.nodup_iff.mpr (by decide)
    have hx : x ∈ [cCSCI100, cCSCI300, cMATH201] := hperm.subset (by simp)
    have hy : y ∈ [cCSCI100, cCSCI300, cMATH201] := hperm.subset (by simp)
    have hz : z ∈ [cCSCI100, cCSCI300, cMATH201] := hperm.subset (by simp)
    simp only [List.mem_cons, List.mem_singleton, List.not_mem_nil, or_false] at hx hy hz
    rcases hx with rfl | rfl | rfl <;> rcases hy with rfl | rfl | rfl <;>
      rcases hz with rfl | rfl | rfl <;>
      first
        | rfl
        | exact absurd hnodup (by decide)
        | exact absurd hsorted (by decide)

/-- C13.  Loading the lines `CSCI100,Intro to CS`,
`CSCI300,Intro to Algorithms,CSCI100`, `MATH201,Discrete Math` into a fresh
20-bucket table succeeds; for every sorting function that meets the contract of
`std::sort` the sorted listing is `CSCI100`, `CSCI300`, `MATH201` in that order;
the query `CSCI300` prints the name `Intro to Algorithms` and the prerequisite
text `CSCI100`; the query `CSCI999` prints `Course not found.`. -/
theorem C13_end_to_end (sort : (Course → Course → Bool) → List Course → List Course)
    (hsort : IsStdSort sort) :
    ∃ table, loadDataStructure (some scenarioLines) (HashTable.new 20) = some (true, table) ∧
      sortedCourses sort table = some [cCSCI100, cCSCI300, cMATH201] ∧
      (sortedCourses sort table).map (fun l => l.map (fun c => c.courseNumber)) =
        some [sCSCI100, sCSCI300, sMATH201] ∧
      findCourse table (toUpper sCSCI300) = some (some cCSCI300) ∧
      printSingleCourse table sCSCI300 =
        some [sCSCI300 ++ [44, 32] ++
            [73, 110, 116, 114, 111, 32, 116, 111, 32, 65, 108, 103, 111, 114, 105, 116, 104,
              109, 115],
          [80, 114, 101, 114, 101, 113, 117, 105, 115, 105, 116, 101, 115, 58, 32] ++ sCSCI100] ∧
      findCourse table (toUpper sCSCI999) = some none ∧
      printSingleCourse table sCSCI999 = some [sNotFound] := by
  have hload : loadDataStructure (some scenarioLines) (HashTable.new 20) =
      some (true, tableOf 20 [cCSCI100, cCSCI300, cMATH201]) := by decide
  have hall : getAllCourses (tableOf 20 [cCSCI100, cCSCI300, cMATH201]) =
      some [cMATH201, cCSCI100, cCSCI300] := by decide
  obtain ⟨hperm, hsorted⟩ := hsort courseLess courseLess_strictWeakOrder
    [cMATH201, cCSCI100, cCSCI300]
  have hs : sortedCourses sort (tableOf 20 [cCSCI100, cCSCI300, cMATH201]) =
      some [cCSCI100, cCSCI300, cMATH201] := by
    unfold sortedCourses
    rw [hall]
    simp only [Option.map_some', Option.some.injEq]
    exact scenario_sorted_unique _ (hperm.trans (by decide)) hsorted
  refine ⟨_, hload, hs, ?_, by decide, by decide, by decide, by decide⟩
  rw [hs]
  decide

/-- Witness of C13: insertion sort as the sorting function. -/
theorem C13_end_to_end_witness :
    IsStdSort insertionSortBy ∧
    ∃ table, loadDataStructure (some scenarioLines) (HashTable.new 20) = some (true, table) ∧
      sortedCourses insertionSortBy table = some [cCSCI100, cCSCI300, cMATH201] ∧
      (sortedCourses insertionSortBy table).map (fun l => l.map (fun c => c.courseNumber)) =
        some [sCSCI100, sCSCI300, sMATH201] ∧
      findCourse table (toUpper sCSCI300) = some (some cCSCI300) ∧
      printSingleCourse table sCSCI300 =
        some [sCSCI300 ++ [44, 32] ++
            [73, 110, 116, 114, 111, 32, 116, 111, 32, 65, 108, 103, 111, 114, 105, 116, 104,
              109, 115],
          [80, 114, 101, 114, 101, 113, 117, 105, 115, 105, 116, 101, 115, 58, 32] ++ sCSCI100] ∧
      findCourse table (toUpper sCSCI999) = some none ∧
      printSingleCourse table sCSCI999 = some [sNotFound] :=
  ⟨insertionSortBy_isStdSort, C13_end_to_end insertionSortBy insertionSortBy_isStdSort⟩

/-! ## C14: the order of courses with equal numbers in the listing -/

theorem perm_short_eq (l1 l2 : List Course) (hperm : l1.Perm l2) (hlen : l2.length ≤ 1) :
    l1 = l2 := by
  match l2, hlen with
  | [], _ => exact List.perm_nil.mp hperm
  | [a], _ => exact List.perm_singleton.mp hperm

/-- C14, amended.  For every sorting function that meets the contract of
`std::sort` and every table built by inserting courses into a fresh table, the
sorted listing holds, for each `courseNumber`, exactly the stored courses with
that number that `getAllCourses` returns (as a multiset); their relative order
is not fixed (`std::sort` is not a stable sort), and it is the order of
`getAllCourses` when at most one stored course has that number. -/
theorem C14_listing_equal_keys (sort : (Course → Course → Bool) → List Course → List Course)
    (tableSize : Int) (cs : List Course) (t : HashTable)
    (hsort : IsStdSort sort) (hpos : 0 < tableSize)
    (ht : insertAll (HashTable.new tableSize) cs = some t) :
    ∃ all courses, getAllCourses t = some all ∧ sortedCourses sort t = some courses ∧
      (∀ K : Str, (courses.filter (fun c => decide (c.courseNumber = K))).Perm
        (all.filter (fun c => decide (c.courseNumber = K)))) ∧
      (∀ K : Str, (all.filter (fun c => decide (c.courseNumber = K))).length ≤ 1 →
        courses.filter (fun c => decide (c.courseNumber = K)) =
          all.filter (fun c => decide (c.courseNumber = K))) := by
  have h1 := insertAll_new tableSize hpos cs t ht
  subst h1
  obtain ⟨hperm, -⟩ := hsort courseLess courseLess_strictWeakOrder
    ((List.range tableSize.toNat).flatMap (bucketContents tableSize cs))
  refine ⟨_, sort courseLess ((List.range tableSize.toNat).flatMap (bucketContents tableSize cs)),
    getAllCourses_tableOf tableSize cs, ?_, ?_, ?_⟩
  · simp [sortedCourses, getAllCourses_tableOf]
  · intro K
    exact hperm.filter _
  · intro K hlen
    exact perm_short_eq _ _ (hperm.filter _) hlen

/-- Witness of C14: the courses `("A", "X")`, `("B", "Z")`, `("A", "Y")` in a
20-bucket table and insertion sort as the sorting function. -/
theorem C14_listing_equal_keys_witness :
    IsStdSort insertionSortBy ∧ (0 : Int) < 20 ∧
    insertAll (HashTable.new 20) [⟨[65], [88], []⟩, ⟨[66], [90], []⟩, ⟨[65], [89], []⟩] =
      some (tableOf 20 [⟨[65], [88], []⟩, ⟨[66], [90], []⟩, ⟨[65], [89], []⟩]) ∧
    ∃ all courses,
      getAllCourses (tableOf 20 [⟨[65], [88], []⟩, ⟨[66], [90], []⟩, ⟨[65], [89], []⟩]) =
        some all ∧
      sortedCourses insertionSortBy
          (tableOf 20 [⟨[65], [88], []⟩, ⟨[66], [90], []⟩, ⟨[65], [89], []⟩]) =
        some courses ∧
      (∀ K : Str, (courses.filter (fun c => decide (c.courseNumber = K))).Perm
        (all.filter (fun c => decide (c.courseNumber = K)))) ∧
      (∀ K : Str, (all.filter (fun c => decide (c.courseNumber = K))).length ≤ 1 →
        courses.filter (fun c => decide (c.courseNumber = K)) =
          all.filter (fun c => decide (c.courseNumber = K))) :=
  ⟨insertionSortBy_isStdSort, by decide, by decide,
    C14_listing_equal_keys insertionSortBy 20
      [⟨[65], [88], []⟩, ⟨[66], [90], []⟩, ⟨[65], [89], []⟩]
      (tableOf 20 [⟨[65], [88], []⟩, ⟨[66], [90], []⟩, ⟨[65], [89], []⟩])
      insertionSortBy_isStdSort (by decide) (by decide)⟩

/-- C14 as stated fails.  Seventeen courses with the same `courseNumber` `A`
and the names `A` to `Q` are inserted in that order into a fresh 20-bucket
table; `getAllCourses` returns them in that order, and `std::sort` as libstdc++
implements it (one partitioning step around the median, then insertion sort)
leaves them in the order `I, Q, P, O, N, M, L, K, J, A, H, G, F, E, D, C, B`:
the course named `I` is listed before the course named `A`.  The result is
sorted and a permutation of the input, as the contract of `std::sort` asks. -/
theorem C14_counterexample :
    insertAll (HashTable.new 20) equalKeyCourses = some (tableOf 20 equalKeyCourses) ∧
    getAllCourses (tableOf 20 equalKeyCourses) = some equalKeyCourses ∧
    equalKeyCourses.map (fun c => c.courseName) =
      [[65], [66], [67], [68], [69], [70], [71], [72], [73], [74], [75], [76], [77], [78],
        [79], [80], [81]] ∧
    (sortedCoursesLibstdcxx (tableOf 20 equalKeyCourses)).map
        (fun l => l.map (fun c => c.courseName)) =
      some [[73], [81], [80], [79], [78], [77], [76], [75], [74], [65], [72], [71], [70],
        [69], [68], [67], [66]] ∧
    sortedCoursesLibstdcxx (tableOf 20 equalKeyCourses) ≠ some equalKeyCourses ∧
    (∃ courses, sortedCoursesLibstdcxx (tableOf 20 equalKeyCourses) = some courses ∧
      courses.Perm equalKeyCourses ∧
      courses.Pairwise (fun a b => courseLess b a = false) ∧
      courses.filter (fun c => decide (c.courseNumber = [65])) ≠
        equalKeyCourses.filter (fun c => decide (c.courseNumber = [65]))) :=
  ⟨by decide, by decide, by decide, by decide, by decide,
    ⟨[8, 16, 15, 14, 13, 12, 11, 10, 9, 0, 7, 6, 5, 4, 3, 2, 1].map
        (fun i => { courseNumber := [65], courseName := [Fin.ofNat (65 + i)],
                    prereqList := [] }),
      by decide, by decide, by decide, by decide⟩⟩

/-! ## C15: the input file cannot be opened, or holds malformed lines -/

theorem insertCourse_of_bucketInv (t : HashTable) (c : Course) (hinv : BucketInv t)
    (hfit : (byteSum c.courseNumber : Int) ≤ INT_MAX) :
    ∃ t1, insertCourse t c = some t1 ∧ BucketInv t1 := by
  have hk := hashKey_eq_of_fits t.tableSize c.courseNumber hinv.size_pos hfit
  obtain ⟨-, -, h0, h1⟩ := hashKey_some t.tableSize c.courseNumber _ hinv.size_pos hk
  have hlt : ((byteSum c.courseNumber : Int) % t.tableSize).toNat < t.buckets.length := by
    rw [hinv.length_eq]
    omega
  have hb : bucketAt t.buckets ((byteSum c.courseNumber : Int) % t.tableSize) =
      some (t.buckets.get ⟨_, hlt⟩) := by
    unfold bucketAt
    rw [if_neg (by omega)]
    exact List.getElem?_eq_getElem hlt
  have hins : ∃ t1, insertCourse t c = some t1 := by
    unfold insertCourse
    rw [hk]
    simp only [hb]
    exact ⟨_, rfl⟩
  obtain ⟨t1, h1⟩ := hins
  exact ⟨t1, h1, bucketInv_insertCourse t t1 c hinv h1⟩

theorem insertAll_of_bucketInv (t : HashTable) (cs : List Course) (hinv : BucketInv t)
    (hfit : ∀ c ∈ cs, (byteSum c.courseNumber : Int) ≤ INT_MAX) :
    ∃ t1, insertAll t cs = some t1 ∧ BucketInv t1 := by
  induction cs generalizing t with
  | nil => exact ⟨t, rfl, hinv⟩
  | cons c cs ih =>
    obtain ⟨t1, h1, hinv1⟩ := insertCourse_of_bucketInv t c hinv (hfit c (by simp))
    obtain ⟨t2, h2, hinv2⟩ := ih t1 hinv1 (fun d hd => hfit d (by simp [hd]))
    exact ⟨t2, by rw [insertAll, h1]; exact h2, hinv2⟩

theorem parseAll_filter (lines : List Str) :
    parseAll (lines.filter (fun line => (parseLine (trim line)).isSome)) = parseAll lines := by
  unfold parseAll
  induction lines with
  | nil => rfl
  | cons line more ih =>
    cases hp : parseLine (trim line) with
    | none => simp [List.filter_cons, List.filterMap_cons, hp, ih]
    | some c => simp [List.filter_cons, List.filterMap_cons, hp, ih]

theorem parseAll_eq_nil (lines : List Str)
    (h : ∀ line ∈ lines, parseLine (trim line) = none) : parseAll lines = [] := by
  unfold parseAll
  induction lines with
  | nil => rfl
  | cons line more ih =>
    rw [List.filterMap_cons, h line (by simp)]
    exact ih (fun l hl => h l (by simp [hl]))

/-- C15.  When the input file cannot be opened, `loadDataStructure` returns
`false` and the table is the one before the call.  When the file opens, the
flag it returns is `true`, never `false`: a file of skipped lines only returns
`true` with the table unchanged, the skipped lines of any file have no effect
on the outcome, and on a table that satisfies the bucket invariant the call
returns `true` whenever the byte sums of the parsed course numbers fit in an
`int` (so that no `insertCourse` call is undefined). -/
theorem C15_input_source_error (table : HashTable) (lines : List Str) :
    loadDataStructure none table = some (false, table) ∧
    (∀ r, loadDataStructure (some lines) table = some r → r.1 = true) ∧
    ((∀ line ∈ lines, parseLine (trim line) = none) →
      loadDataStructure (some lines) table = some (true, table)) ∧
    loadDataStructure (some lines) table =
      loadDataStructure
        (some (lines.filter (fun line => (parseLine (trim line)).isSome))) table ∧
    (BucketInv table → (∀ c ∈ parseAll lines, (byteSum c.courseNumber : Int) ≤ INT_MAX) →
      ∃ table1, loadDataStructure (some lines) table = some (true, table1)) := by
  refine ⟨rfl, ?_, ?_, ?_, ?_⟩
  · intro r hr
    unfold loadDataStructure at hr
    simp only at hr
    cases hl : loadLines table lines with
    | none => rw [hl] at hr; cases hr
    | some t1 =>
      rw [hl] at hr
      simp only [Option.map_some', Option.some.injEq] at hr
      rw [← hr]
  · intro h
    unfold loadDataStructure
    simp only
    rw [loadLines_eq_insertAll, parseAll_eq_nil lines h]
    rfl
  · unfold loadDataStructure
    simp only
    rw [loadLines_eq_insertAll, loadLines_eq_insertAll, parseAll_filter]
  · intro hinv hfit
    obtain ⟨t1, h1, -⟩ := insertAll_of_bucketInv table (parseAll lines) hinv hfit
    refine ⟨t1, ?_⟩
    unfold loadDataStructure
    simp only
    rw [loadLines_eq_insertAll, h1]
    rfl

/-! ## C16: the bucket index is in range -/

/-- C16.  For a positive `tableSize` and a key whose byte sum fits in a signed
32-bit `int`, `hashKey` returns an index `h` with `0 ≤ h < tableSize` (the byte
sum modulo `tableSize`); so on every table with that `tableSize` that satisfies
the bucket invariant the access `buckets[h]` is inside the vector, and
`findCourse(key)` and `insertCourse` of a course with that number are defined. -/
theorem C16_bucket_index_in_range (tableSize : Int) (key : Str) (hpos : 0 < tableSize)
    (hfit : (byteSum key : Int) ≤ INT_MAX) :
    ∃ h, hashKey tableSize key = some h ∧ 0 ≤ h ∧ h < tableSize ∧
      h = (byteSum key : Int) % tableSize ∧
      ∀ t, BucketInv t → t.tableSize = tableSize →
        h.toNat < t.buckets.length ∧
        (∃ chain, bucketAt t.buckets h = some chain) ∧
        (∃ r, findCourse t key = some r) ∧
        (∀ c : Course, c.courseNumber = key → ∃ t1, insertCourse t c = some t1) := by
  have hk := hashKey_eq_of_fits tableSize key hpos hfit
  obtain ⟨-, -, h0, h1⟩ := hashKey_some tableSize key _ hpos hk
  refine ⟨_, hk, h0, h1, rfl, ?_⟩
  intro t hinv hts
  have hlt : ((byteSum key : Int) % tableSize).toNat < t.buckets.length := by
    rw [hinv.length_eq, hts]
    omega
  have hb : bucketAt t.buckets ((byteSum key : Int) % tableSize) =
      some (t.buckets.get ⟨_, hlt⟩) := by
    unfold bucketAt
    rw [if_neg (by omega)]
    exact List.getElem?_eq_getElem hlt
  refine ⟨hlt, ⟨_, hb⟩, ?_, ?_⟩
  · unfold findCourse
    rw [hts, hk]
    simp only [hb]
    exact ⟨_, rfl⟩
  · intro c hc
    obtain ⟨t1, h1, -⟩ := insertCourse_of_bucketInv t c hinv (by rw [hc]; exact hfit)
    exact ⟨t1, h1⟩

/-- Witness of C16: the key `CSCI300` (byte sum 437) and 20 buckets give the
index 17. -/
theorem C16_bucket_index_in_range_witness :
    (0 : Int) < 20 ∧ (byteSum sCSCI300 : Int) ≤ INT_MAX ∧ hashKey 20 sCSCI300 = some 17 ∧
    ∃ h, hashKey 20 sCSCI300 = some h ∧ 0 ≤ h ∧ h < 20 ∧
      h = (byteSum sCSCI300 : Int) % 20 ∧
      ∀ t, BucketInv t → t.tableSize = 20 →
        h.toNat < t.buckets.length ∧
        (∃ chain, bucketAt t.buckets h = some chain) ∧
        (∃ r, findCourse t sCSCI300 = some r) ∧
        (∀ c : Course, c.courseNumber = sCSCI300 → ∃ t1, insertCourse t c = some t1) :=
  ⟨by decide, by decide, by decide,
    C16_bucket_index_in_range 20 sCSCI300 (by decide) (by decide)⟩

/-! ## C17: which lines are accepted -/

theorem scan_of_split (delim : Byte) (pre post : Str) (h : delim ∉ pre) :
    getline.scan delim (pre ++ delim :: post) = (pre, post, true) := by
  induction pre with
  | nil => simp [getline.scan]
  | cons a pre ih =>
    have ha : a ≠ delim := fun e => h (by simp [e])
    have hpre : delim ∉ pre := fun e => h (by simp [e])
    rw [List.cons_append, getline.scan, if_neg ha, ih hpre]

theorem scan_found_split (delim : Byte) (r tok r1 : Str)
    (h : getline.scan delim r = (tok, r1, true)) :
    r = tok ++ delim :: r1 ∧ delim ∉ tok := by
  induction r generalizing tok with
  | nil => simp [getline.scan] at h
  | cons c rest ih =>
    unfold getline.scan at h
    by_cases hc : c = delim
    · rw [if_pos hc] at h
      simp only [Prod.mk.injEq, and_true] at h
      obtain ⟨h1, h2⟩ := h
      subst h1 h2 hc
      simp
    · rw [if_neg hc] at h
      simp only [Prod.mk.injEq] at h
      obtain ⟨h1, h2, h3⟩ := h
      have hs : getline.scan delim rest = ((getline.scan delim rest).1, r1, true) := by
        rw [← h2, ← h3]
      obtain ⟨ih1, ih2⟩ := ih _ hs
      subst h1
      refine ⟨by rw [List.cons_append, ← ih1], ?_⟩
      intro hmem
      rcases List.mem_cons.mp hmem with e | e
      · exact hc e.symm
      · exact ih2 e

theorem split_first (delim : Byte) (r : Str) (h : delim ∈ r) :
    ∃ pre post, r = pre ++ delim :: post ∧ delim ∉ pre := by
  induction r with
  | nil => cases h
  | cons c rest ih =>
    by_cases hc : c = delim
    · exact ⟨[], rest, by simp [hc], by simp⟩
    · have hrest : delim ∈ rest := by
        rcases List.mem_cons.mp h with e | e
        · exact absurd e.symm hc
        · exact e
      obtain ⟨pre, post, e1, e2⟩ := ih hrest
      refine ⟨c :: pre, post, by rw [e1]; rfl, ?_⟩
      intro hm
      rcases List.mem_cons.mp hm with e | e
      · exact hc e.symm
      · exact e2 e

theorem scan_not_found_mem (delim : Byte) (r tok r1 : Str)
    (h : getline.scan delim r = (tok, r1, false)) : delim ∉ r := by
  intro hmem
  obtain ⟨pre, post, hr, hpre⟩ := split_first delim r hmem
  rw [hr, scan_of_split delim pre post hpre] at h
  simp at h

theorem parseLine_of_no_comma (line : Str) (h : comma ∉ line) : parseLine line = none := by
  unfold parseLine getline
  simp only [StringStream.ofStr, Bool.or_self, Bool.false_eq_true, if_false]
  rcases hs : getline.scan comma line with ⟨tok, r1, found⟩
  cases found with
  | true =>
    obtain ⟨hr, -⟩ := scan_found_split comma line tok r1 hs
    exact absurd (by rw [hr]; simp) h
  | false =>
    simp only
    by_cases htok : tok.isEmpty = true
    · rw [if_pos htok]
    · rw [if_neg htok]
      simp [getline]

theorem parseLine_of_split (pre post : Str) (hpre : comma ∉ pre) :
    (post = [] → parseLine (pre ++ comma :: post) = none) ∧
    (post ≠ [] → ∃ c, parseLine (pre ++ comma :: post) = some c) := by
  have hs := scan_of_split comma pre post hpre
  constructor
  · intro hpost
    subst hpost
    unfold parseLine getline
    simp only [StringStream.ofStr, Bool.or_self, Bool.false_eq_true, if_false, hs]
    simp [getline.scan]
  · intro hpost
    unfold parseLine getline
    simp only [StringStream.ofStr, Bool.or_self, Bool.false_eq_true, if_false, hs]
    rcases hs2 : getline.scan comma post with ⟨tok2, r2, found2⟩
    cases found2 with
    | true => exact ⟨_, rfl⟩
    | false =>
      obtain ⟨h2, -, -⟩ := scan_not_found comma post tok2 r2 hs2
      have htok : tok2.isEmpty = false := by
        rw [h2]
        cases post with
        | nil => exact absurd rfl hpost
        | cons a b => rfl
      simp only [htok, Bool.false_eq_true, if_false]
      exact ⟨_, rfl⟩

/-- A line is accepted exactly when its first comma is followed by at least
one more character. -/
theorem parseLine_isSome_iff (line : Str) :
    (∃ c, parseLine line = some c) ↔
      ∃ pre post, line = pre ++ comma :: post ∧ comma ∉ pre ∧ post ≠ [] := by
  constructor
  · rintro ⟨c, hc⟩
    by_cases hmem : comma ∈ line
    · obtain ⟨pre, post, hr, hpre⟩ := split_first comma line hmem
      refine ⟨pre, post, hr, hpre, ?_⟩
      intro hpost
      rw [hr, (parseLine_of_split pre post hpre).1 hpost] at hc
      cases hc
    · rw [parseLine_of_no_comma line hmem] at hc
      cases hc
  · rintro ⟨pre, post, hr, hpre, hpost⟩
    rw [hr]
    exact (parseLine_of_split pre post hpre).2 hpost

theorem comma_not_last_iff (line : Str) :
    (∃ pre post, line = pre ++ comma :: post ∧ post ≠ []) ↔
      ∃ pre post, line = pre ++ comma :: post ∧ comma ∉ pre ∧ post ≠ [] := by
  constructor
  · rintro ⟨pre, post, hr, hpost⟩
    have hmem : comma ∈ pre ++ [comma] := by simp
    obtain ⟨pre1, post1, h1, h2⟩ := split_first comma _ hmem
    refine ⟨pre1, post1 ++ post, ?_, h2, ?_⟩
    · rw [hr]
      have : pre ++ comma :: post = (pre ++ [comma]) ++ post := by simp
      rw [this, h1]
      simp
    · intro h
      have := List.append_eq_nil.mp h
      exact hpost this.2
  · rintro ⟨pre, post, hr, -, hpost⟩
    exact ⟨pre, post, hr, hpost⟩

/-- C17.  `loadDataStructure` passes a course to `insertCourse` for a line if
and only if the trimmed line contains a comma that is not its last character,
which is to say that its first comma is followed by at least one more
character; every other line is skipped.  So `CSCI100,` is skipped, `,Name` is
inserted with an empty `courseNumber` and `A,,B` with an empty `courseName`. -/
theorem C17_line_acceptance (table : HashTable) (line : Str) :
    ((∃ c, parseLine (trim line) = some c ∧ processLine table line = insertCourse table c) ↔
      ∃ pre post, trim line = pre ++ comma :: post ∧ post ≠ []) ∧
    ((∃ pre post, trim line = pre ++ comma :: post ∧ post ≠ []) ↔
      ∃ pre post, trim line = pre ++ comma :: post ∧ comma ∉ pre ∧ post ≠ []) ∧
    ((¬ ∃ pre post, trim line = pre ++ comma :: post ∧ post ≠ []) →
      parseLine (trim line) = none ∧ processLine table line = some table) ∧
    processLine table [67, 83, 67, 73, 49, 48, 48, 44] = some table ∧
    processLine table [44, 78, 97, 109, 101] =
      insertCourse table ⟨[], [78, 97, 109, 101], []⟩ ∧
    processLine table [65, 44, 44, 66] = insertCourse table ⟨[65], [], [[66]]⟩ := by
  have hiff : (∃ c, parseLine (trim line) = some c) ↔
      ∃ pre post, trim line = pre ++ comma :: post ∧ post ≠ [] :=
    (parseLine_isSome_iff (trim line)).trans (comma_not_last_iff (trim line)).symm
  refine ⟨?_, comma_not_last_iff (trim line), ?_, ?_, ?_, ?_⟩
  · constructor
    · rintro ⟨c, hc, -⟩
      exact hiff.mp ⟨c, hc⟩
    · intro h
      obtain ⟨c, hc⟩ := hiff.mpr h
      refine ⟨c, hc, ?_⟩
      rw [processLine_eq, hc]
  · intro h
    have hnone : parseLine (trim line) = none := by
      cases hp : parseLine (trim line) with
      | none => rfl
      | some c => exact absurd (hiff.mp ⟨c, hp⟩) h
    refine ⟨hnone, ?_⟩
    rw [processLine_eq, hnone]
  · rw [processLine_eq,
      show parseLine (trim [67, 83, 67, 73, 49, 48, 48, 44]) = none from by decide]
  · rw [processLine_eq,
      show parseLine (trim [44, 78, 97, 109, 101]) = some ⟨[], [78, 97, 109, 101], []⟩
        from by decide]
  · rw [processLine_eq,
      show parseLine (trim [65, 44, 44, 66]) = some ⟨[65], [], [[66]]⟩ from by decide]

/-! ## C18: normalization is idempotent -/

theorem isTrimChar_iff (c : Byte) :
    isTrimChar c = true ↔ (c.val = 32 ∨ c.val = 9 ∨ c.val = 13 ∨ c.val = 10) := by
  simp only [isTrimChar, Bool.or_eq_true, beq_iff_eq, Fin.ext_iff, or_assoc]
  rfl

theorem isTrimChar_toupper (c : Byte) : isTrimChar (toupper c) = isTrimChar c := by
  unfold toupper
  by_cases h : 97 ≤ c.val ∧ c.val ≤ 122
  · rw [dif_pos h]
    have h1 : ¬ (isTrimChar c = true) := by
      rw [isTrimChar_iff]
      omega
    have h2 : ¬ (isTrimChar (⟨c.val - 32, by omega⟩ : Byte) = true) := by
      rw [isTrimChar_iff]
      simp only
      omega
    rw [Bool.not_eq_true] at h1 h2
    rw [h1, h2]
  · rw [dif_neg h]

theorem toupper_idem (c : Byte) : toupper (toupper c) = toupper c := by
  by_cases h : 97 ≤ c.val ∧ c.val ≤ 122
  · have h1 : toupper c = ⟨c.val - 32, by omega⟩ := by
      unfold toupper
      rw [dif_pos h]
    rw [h1]
    unfold toupper
    rw [dif_neg]
    simp only
    omega
  · have h1 : toupper c = c := by
      unfold toupper
      rw [dif_neg h]
    rw [h1, h1]

theorem toUpper_idem (s : Str) : toUpper (toUpper s) = toUpper s := by
  unfold toUpper
  rw [List.map_map]
  apply List.map_congr_left
  intro c _
  exact toupper_idem c

theorem find_first_not_of_toUpper (s : Str) :
    find_first_not_of (toUpper s) = find_first_not_of s := by
  induction s with
  | nil => rfl
  | cons c rest ih =>
    unfold toUpper at ih ⊢
    simp only [List.map_cons, find_first_not_of, isTrimChar_toupper, ih]

theorem find_last_not_of_toUpper (s : Str) :
    find_last_not_of (toUpper s) = find_last_not_of s := by
  induction s with
  | nil => rfl
  | cons c rest ih =>
    unfold toUpper at ih ⊢
    simp only [List.map_cons, find_last_not_of, isTrimChar_toupper, ih]

/-- Trimming and upper-casing commute. -/
theorem trim_toUpper (s : Str) : trim (toUpper s) = toUpper (trim s) := by
  unfold trim
  rw [find_first_not_of_toUpper, find_last_not_of_toUpper]
  cases find_first_not_of s with
  | none => rfl
  | some i =>
    cases find_last_not_of s with
    | none => simp [toUpper, List.map_drop]
    | some j => simp [substr, toUpper, List.map_drop, List.map_take]

theorem find_last_not_of_concat (pre : Str) (b : Byte) (hb : isTrimChar b = false) :
    find_last_not_of (pre ++ [b]) = some pre.length := by
  induction pre with
  | nil => simp [find_last_not_of, hb]
  | cons a pre ih => simp [find_last_not_of, ih]

/-- A string that neither starts nor ends with a trimmed character is left
unchanged by `trim`. -/
theorem trim_eq_self (m : Str)
    (hhead : ∀ a, m.head? = some a → isTrimChar a = false)
    (hlast : ∀ b, m.getLast? = some b → isTrimChar b = false) : trim m = m := by
  cases m with
  | nil => rfl
  | cons a rest =>
    have ha : isTrimChar a = false := hhead a rfl
    have hne : a :: rest ≠ [] := by simp
    have hsplit : (a :: rest).dropLast ++ [(a :: rest).getLast hne] = a :: rest :=
      List.dropLast_append_getLast hne
    have hb : isTrimChar ((a :: rest).getLast hne) = false :=
      hlast _ (List.getLast?_eq_getLast _ hne)
    have hl : find_last_not_of (a :: rest) = some (a :: rest).dropLast.length := by
      conv_lhs => rw [← hsplit]
      exact find_last_not_of_concat _ _ hb
    have hf : find_first_not_of (a :: rest) = some 0 := by
      simp [find_first_not_of, ha]
    unfold trim
    rw [hf]
    simp only [hl, substr, List.drop_zero, Nat.sub_zero]
    apply List.take_of_length_le
    simp

theorem trim_idem (s : Str) : trim (trim s) = trim s := by
  obtain ⟨l, r, -, -, -, hhead, hlast⟩ := trim_spec s
  exact trim_eq_self (trim s) hhead hlast

theorem normalize_idem (s : Str) : normalize (normalize s) = normalize s := by
  unfold normalize
  rw [trim_toUpper, trim_idem, toUpper_idem]

theorem mem_prereqsOfFields (fields : List Str) (p : Str) (hp : p ∈ prereqsOfFields fields) :
    ∃ f, p = normalize f := by
  unfold prereqsOfFields at hp
  obtain ⟨hm, -⟩ := List.mem_filter.mp hp
  obtain ⟨f, -, hf⟩ := List.mem_map.mp hm
  exact ⟨f, hf.symm⟩

theorem parseLine_normalized (line : Str) (c : Course) (h : parseLine line = some c) :
    normalize c.courseNumber = c.courseNumber ∧ toUpper c.courseNumber = c.courseNumber ∧
      ∀ p ∈ c.prereqList, normalize p = p ∧ toUpper p = p := by
  obtain ⟨f0, f1, more, -, hc⟩ := parseLine_spec line c h
  subst hc
  refine ⟨normalize_idem f0, toUpper_idem _, ?_⟩
  intro p hp
  obtain ⟨f, hf⟩ := mem_prereqsOfFields more p hp
  subst hf
  exact ⟨normalize_idem f, toUpper_idem _⟩

theorem mem_parseAll (lines : List Str) (c : Course) (hc : c ∈ parseAll lines) :
    ∃ line ∈ lines, parseLine (trim line) = some c := by
  unfold parseAll at hc
  obtain ⟨line, hl, hp⟩ := List.mem_filterMap.mp hc
  exact ⟨line, hl, hp⟩

theorem firstMatch_of_mem (cs : List Course) (c : Course) (hc : c ∈ cs) :
    ∃ d, firstMatch cs c.courseNumber = some d ∧ d.courseNumber = c.courseNumber := by
  cases hf : firstMatch cs c.courseNumber with
  | none => exact absurd rfl ((firstMatch_eq_none cs c.courseNumber).mp hf c hc)
  | some d =>
    refine ⟨d, rfl, ?_⟩
    unfold firstMatch at hf
    have := List.find?_some hf
    simpa using this

theorem isspace_iff (c : Byte) :
    isspace c = true ↔
      (c.val = 32 ∨ c.val = 9 ∨ c.val = 10 ∨ c.val = 11 ∨ c.val = 12 ∨ c.val = 13) := by
  simp only [isspace, Bool.or_eq_true, beq_iff_eq, Fin.ext_iff, or_assoc]
  rfl

theorem isspace_toupper (c : Byte) : isspace (toupper c) = isspace c := by
  unfold toupper
  by_cases h : 97 ≤ c.val ∧ c.val ≤ 122
  · rw [dif_pos h]
    have h1 : ¬ (isspace c = true) := by
      rw [isspace_iff]
      omega
    have h2 : ¬ (isspace (⟨c.val - 32, by omega⟩ : Byte) = true) := by
      rw [isspace_iff]
      simp only
      omega
    rw [Bool.not_eq_true] at h1 h2
    rw [h1, h2]
  · rw [dif_neg h]

/-- A text without whitespace, between whitespace on both sides, is what
`cin >> input` reads. -/
theorem cinExtract_padded (l r rr : Str) (hl : ∀ b ∈ l, isspace b = true)
    (hr : ∀ b ∈ r, isspace b = false) (hrr : ∀ b ∈ rr, isspace b = true) :
    cinExtract (l ++ r ++ rr) = r := by
  unfold cinExtract
  rw [List.append_assoc, dropWhile_all_append isspace l _ hl]
  cases r with
  | nil =>
    simp only [List.nil_append]
    rw [dropWhile_all isspace rr hrr]
    rfl
  | cons a m =>
    have ha : isspace a = false := hr a (by simp)
    simp only [List.cons_append, List.dropWhile_cons, ha, Bool.false_eq_true, if_false]
    rw [← List.cons_append]
    apply takeWhile_append_stop
    · intro c hc
      simp [hr c hc]
    · intro c hc
      simp [hrr c hc]

theorem cinExtract_of_no_space (r : Str) (hr : ∀ b ∈ r, isspace b = false) :
    cinExtract r = r := by
  have := cinExtract_padded [] r [] (by simp) hr (by simp)
  simpa using this

theorem firstMatch_some (cs : List Course) (k : Str) (d : Course)
    (h : firstMatch cs k = some d) : d ∈ cs ∧ d.courseNumber = k := by
  unfold firstMatch at h
  refine ⟨List.mem_of_find?_eq_some h, ?_⟩
  have := List.find?_some h
  simpa using this

/-- C18, amended.  For every string `s`,
`toUpper(trim(toUpper(trim(s)))) = toUpper(trim(s))` and
`toUpper(trim(s)) = trim(toUpper(s))`; so every `courseNumber` and every
prerequisite stored by `loadDataStructure` is a fixed point of `normalize`.  A
query (`cin >> input`, then `findCourse(toUpper(input))`) for such a stored text
that holds no whitespace byte looks up that text unchanged: for the
`courseNumber` of a loaded course it finds a course with that number, and for a
stored prerequisite it finds a course if and only if a course with that number
is stored, the found course being a stored one. -/
theorem C18_normalization_idempotent (s : Str) :
    toUpper (trim (toUpper (trim s))) = toUpper (trim s) ∧
    toUpper (trim s) = trim (toUpper s) ∧
    (∀ line c, parseLine (trim line) = some c →
      normalize c.courseNumber = c.courseNumber ∧
      ∀ p ∈ c.prereqList, normalize p = p) ∧
    (∀ tableSize cs0 lines t0 t, 0 < tableSize →
      insertAll (HashTable.new tableSize) cs0 = some t0 → loadLines t0 lines = some t →
      ∀ c ∈ parseAll lines,
        ((∀ b ∈ c.courseNumber, isspace b = false) →
          ∃ d, d.courseNumber = c.courseNumber ∧
            singleCourseLookup t c.courseNumber = some (some d) ∧
            singleCourseQuery t c.courseNumber = some (printFound d)) ∧
        ∀ p ∈ c.prereqList, (∀ b ∈ p, isspace b = false) →
          singleCourseLookup t p = findCourse t p ∧
          ((∃ e ∈ cs0 ++ parseAll lines, e.courseNumber = p) ↔
            ∃ d, d.courseNumber = p ∧ singleCourseLookup t p = some (some d)) ∧
          (∀ d, singleCourseLookup t p = some (some d) →
            d ∈ cs0 ++ parseAll lines ∧ d.courseNumber = p ∧
              singleCourseQuery t p = some (printFound d))) := by
  refine ⟨normalize_idem s, (trim_toUpper s).symm, ?_, ?_⟩
  · intro line c hc
    obtain ⟨h1, -, h3⟩ := parseLine_normalized (trim line) c hc
    exact ⟨h1, fun p hp => (h3 p hp).1⟩
  · intro tableSize cs0 lines t0 t hpos h0 hload
    have e0 := insertAll_new tableSize hpos cs0 t0 h0
    have hf0 := insertAll_fits tableSize cs0 t0 _ h0 rfl
    subst e0
    rw [loadLines_eq_insertAll] at hload
    have e1 := insertAll_tableOf tableSize hpos (parseAll lines) cs0 t hload
    have hf := insertAll_fits tableSize (parseAll lines) t _ hload rfl
    subst e1
    have hkey : ∀ e ∈ cs0 ++ parseAll lines,
        ∃ h, hashKey tableSize e.courseNumber = some h := by
      intro e he
      rcases List.mem_append.mp he with he | he
      · exact hf0 e he
      · exact hf e he
    -- the lookup of a text without whitespace that is its own upper case
    have hlook : ∀ k : Str, (∀ b ∈ k, isspace b = false) → toUpper k = k →
        singleCourseLookup (tableOf tableSize (cs0 ++ parseAll lines)) k =
          findCourse (tableOf tableSize (cs0 ++ parseAll lines)) k := by
      intro k hk hup
      unfold singleCourseLookup
      rw [cinExtract_of_no_space k hk, hup]
    have hquery : ∀ (k : Str) (d : Course), (∀ b ∈ k, isspace b = false) → toUpper k = k →
        findCourse (tableOf tableSize (cs0 ++ parseAll lines)) k = some (some d) →
        singleCourseQuery (tableOf tableSize (cs0 ++ parseAll lines)) k =
          some (printFound d) := by
      intro k d hk hup hfind
      unfold singleCourseQuery printSingleCourse
      rw [cinExtract_of_no_space k hk, hup]
      simp only [hfind]
    have hstored : ∀ e ∈ cs0 ++ parseAll lines, ∃ d, d.courseNumber = e.courseNumber ∧
        findCourse (tableOf tableSize (cs0 ++ parseAll lines)) e.courseNumber =
          some (some d) := by
      intro e he
      obtain ⟨h, hh⟩ := hkey e he
      obtain ⟨d, hd1, hd2⟩ := firstMatch_of_mem (cs0 ++ parseAll lines) e he
      exact ⟨d, hd2, by rw [findCourse_tableOf tableSize hpos _ e.courseNumber h hh, hd1]⟩
    have hfound : ∀ (k : Str) (d : Course),
        findCourse (tableOf tableSize (cs0 ++ parseAll lines)) k = some (some d) →
        d ∈ cs0 ++ parseAll lines ∧ d.courseNumber = k := by
      intro k d hfind
      cases hk : hashKey tableSize k with
      | none =>
        rw [findCourse_tableOf_none tableSize _ k hk] at hfind
        cases hfind
      | some h =>
        rw [findCourse_tableOf tableSize hpos _ k h hk] at hfind
        exact firstMatch_some _ k d (Option.some.inj hfind)
    intro c hc
    obtain ⟨line, -, hpl⟩ := mem_parseAll lines c hc
    obtain ⟨-, hupc, h3⟩ := parseLine_normalized (trim line) c hpl
    refine ⟨?_, ?_⟩
    · intro hws
      obtain ⟨d, hd1, hd2⟩ := hstored c (by simp [hc])
      exact ⟨d, hd1, by rw [hlook _ hws hupc]; exact hd2, hquery _ d hws hupc hd2⟩
    · intro p hp hws
      have hupp : toUpper p = p := (h3 p hp).2
      refine ⟨hlook p hws hupp, ?_, ?_⟩
      · constructor
        · rintro ⟨e, he, hep⟩
          obtain ⟨d, hd1, hd2⟩ := hstored e he
          rw [hep] at hd1 hd2
          exact ⟨d, hd1, by rw [hlook p hws hupp]; exact hd2⟩
        · rintro ⟨d, hd1, hd2⟩
          rw [hlook p hws hupp] at hd2
          exact ⟨d, (hfound p d hd2).1, hd1⟩
      · intro d hd
        rw [hlook p hws hupp] at hd
        obtain ⟨hmem, hnum⟩ := hfound p d hd
        exact ⟨hmem, hnum, hquery p d hws hupp hd⟩

/-- C18 as stated fails.  First: with the single line
`CSCI300,Intro to Algorithms,CSCI100` loaded into a fresh 20-bucket table, the
prerequisite `CSCI100` is stored (in the `prereqList` of `CSCI300`) and is a
fixed point of `normalize`, but the query for its stored text prints
`Course not found.`: no course `CSCI100` was loaded.  Second: the line `a b,X`
stores the `courseNumber` `A B`, a fixed point of `normalize`, and the query for
that stored text prints `Course not found.` too, because `cin >> input` reads
only `A`. -/
theorem C18_counterexample :
    loadDataStructure (some [lineCSCI300]) (HashTable.new 20) =
      some (true, tableOf 20 [cCSCI300]) ∧
    sCSCI100 ∈ cCSCI300.prereqList ∧
    normalize sCSCI100 = sCSCI100 ∧
    singleCourseLookup (tableOf 20 [cCSCI300]) sCSCI100 = some none ∧
    singleCourseQuery (tableOf 20 [cCSCI300]) sCSCI100 = some [sNotFound] ∧
    loadDataStructure (some [lineAB]) (HashTable.new 20) = some (true, tableOf 20 [cAB]) ∧
    normalize cAB.courseNumber = cAB.courseNumber ∧
    cinExtract cAB.courseNumber = [65] ∧
    singleCourseLookup (tableOf 20 [cAB]) cAB.courseNumber = some none ∧
    singleCourseQuery (tableOf 20 [cAB]) cAB.courseNumber = some [sNotFound] :=
  ⟨by decide, by decide, by decide, by decide, by decide, by decide, by decide, by decide,
    by decide, by decide⟩

/-! ## C19: loading is cumulative -/

theorem firstMatch_append_of_covered (cs extra : List Course) (k : Str)
    (h : ∀ e ∈ extra, e.courseNumber = k → ∃ d ∈ cs, d.courseNumber = k) :
    firstMatch (cs ++ extra) k = firstMatch cs k := by
  unfold firstMatch
  rw [List.find?_append]
  cases hf : cs.find? (fun c => decide (c.courseNumber = k)) with
  | some d => rfl
  | none =>
    simp only [Option.none_or]
    rw [List.find?_eq_none]
    intro e he
    simp only [decide_eq_true_eq]
    intro hek
    obtain ⟨d, hd, hdk⟩ := h e he hek
    have := (List.find?_eq_none.mp hf) d hd
    simp [hdk] at this

theorem bucketContents_append_list (tableSize : Int) (cs extra : List Course) (i : Nat) :
    bucketContents tableSize (cs ++ extra) i =
      bucketContents tableSize cs i ++ bucketContents tableSize extra i := by
  unfold bucketContents
  rw [List.filter_append]

/-- C19, amended.  `loadDataStructure` on a table that already holds entries only
appends: every chain keeps its entries and receives the new ones at its tail,
and `getAllCourses` gains exactly the courses parsed from the lines.  Loading
the lines `L` a second time is defined whenever the first load was; it adds the
courses parsed from `L` once more and leaves every `findCourse` result as it
was after the first load.  When the table was fresh before the first load (the
table of `main`), every course occurs in `getAllCourses` exactly twice as often
as after one load, and the length doubles. -/
theorem C19_cumulative_loading (tableSize : Int) (cs0 : List Course) (lines : List Str)
    (t0 t1 : HashTable) (hpos : 0 < tableSize)
    (h0 : insertAll (HashTable.new tableSize) cs0 = some t0)
    (h1 : loadLines t0 lines = some t1) :
    ∃ t2 all0 all1 all2, loadLines t1 lines = some t2 ∧
      loadDataStructure (some lines) t1 = some (true, t2) ∧
      getAllCourses t0 = some all0 ∧ getAllCourses t1 = some all1 ∧
      getAllCourses t2 = some all2 ∧
      (∀ (i : Nat) (chain0 : List Course), t0.buckets[i]? = some chain0 →
        ∃ added, t1.buckets[i]? = some (chain0 ++ added) ∧
          t2.buckets[i]? = some (chain0 ++ added ++ added)) ∧
      (∀ c, all1.count c = all0.count c + (parseAll lines).count c) ∧
      (∀ c, all2.count c = all1.count c + (parseAll lines).count c) ∧
      all1.length = all0.length + (parseAll lines).length ∧
      all2.length = all1.length + (parseAll lines).length ∧
      (∀ k, findCourse t2 k = findCourse t1 k) ∧
      (cs0 = [] → (∀ c, all2.count c = 2 * all1.count c) ∧ all2.length = 2 * all1.length) := by
  have e0 := insertAll_new tableSize hpos cs0 t0 h0
  have hf0 := insertAll_fits tableSize cs0 t0 _ h0 rfl
  subst e0
  rw [loadLines_eq_insertAll] at h1
  have e1 := insertAll_tableOf tableSize hpos (parseAll lines) cs0 t1 h1
  have hf1 := insertAll_fits tableSize (parseAll lines) t1 _ h1 rfl
  subst e1
  have hfit : ∀ c ∈ parseAll lines, (byteSum c.courseNumber : Int) ≤ INT_MAX := by
    intro c hc
    obtain ⟨h, hh⟩ := hf1 c hc
    exact (hashKey_some tableSize _ h hpos hh).1
  have h2 : loadLines (tableOf tableSize (cs0 ++ parseAll lines)) lines =
      some (tableOf tableSize (cs0 ++ parseAll lines ++ parseAll lines)) := by
    rw [loadLines_eq_insertAll]
    exact insertAll_tableOf_of_fits tableSize hpos (parseAll lines) _ hfit
  have hk0 : ∀ c ∈ cs0, ∃ h, hashKey tableSize c.courseNumber = some h := hf0
  have hk1 : ∀ c ∈ cs0 ++ parseAll lines, ∃ h, hashKey tableSize c.courseNumber = some h := by
    intro c hc
    rcases List.mem_append.mp hc with hc | hc
    · exact hf0 c hc
    · exact hf1 c hc
  have hk2 : ∀ c ∈ cs0 ++ parseAll lines ++ parseAll lines,
      ∃ h, hashKey tableSize c.courseNumber = some h := by
    intro c hc
    rcases List.mem_append.mp hc with hc | hc
    · exact hk1 c hc
    · exact hf1 c hc
  have p0 := getAll_perm tableSize hpos cs0 hk0
  have p1 := getAll_perm tableSize hpos _ hk1
  have p2 := getAll_perm tableSize hpos _ hk2
  have hc1 : ∀ c, ((List.range tableSize.toNat).flatMap
      (bucketContents tableSize (cs0 ++ parseAll lines))).count c =
      ((List.range tableSize.toNat).flatMap (bucketContents tableSize cs0)).count c +
        (parseAll lines).count c := by
    intro c
    rw [p1.count_eq, p0.count_eq, List.count_append]
  have hc2 : ∀ c, ((List.range tableSize.toNat).flatMap
      (bucketContents tableSize (cs0 ++ parseAll lines ++ parseAll lines))).count c =
      ((List.range tableSize.toNat).flatMap
        (bucketContents tableSize (cs0 ++ parseAll lines))).count c +
        (parseAll lines).count c := by
    intro c
    rw [p2.count_eq, p1.count_eq, List.count_append]
  have hl1 : ((List.range tableSize.toNat).flatMap
      (bucketContents tableSize (cs0 ++ parseAll lines))).length =
      ((List.range tableSize.toNat).flatMap (bucketContents tableSize cs0)).length +
        (parseAll lines).length := by
    rw [p1.length_eq, p0.length_eq, List.length_append]
  have hl2 : ((List.range tableSize.toNat).flatMap
      (bucketContents tableSize (cs0 ++ parseAll lines ++ parseAll lines))).length =
      ((List.range tableSize.toNat).flatMap
        (bucketContents tableSize (cs0 ++ parseAll lines))).length +
        (parseAll lines).length := by
    rw [p2.length_eq, p1.length_eq, List.length_append]
  refine ⟨_, _, _, _, h2, ?_, getAllCourses_tableOf tableSize cs0,
    getAllCourses_tableOf tableSize _, getAllCourses_tableOf tableSize _,
    ?_, hc1, hc2, hl1, hl2, ?_, ?_⟩
  · unfold loadDataStructure
    simp only [h2]
    rfl
  · intro i chain0 hi
    obtain ⟨hlt, hchain⟩ := getElem?_tableOf tableSize cs0 i chain0 hi
    subst hchain
    refine ⟨bucketContents tableSize (parseAll lines) i, ?_, ?_⟩
    · unfold tableOf
      simp only [List.getElem?_map, List.getElem?_range hlt, Option.map_some']
      rw [bucketContents_append_list]
    · unfold tableOf
      simp only [List.getElem?_map, List.getElem?_range hlt, Option.map_some']
      rw [bucketContents_append_list, bucketContents_append_list]
  · intro k
    cases hk : hashKey tableSize k with
    | none =>
      rw [findCourse_tableOf_none tableSize _ k hk, findCourse_tableOf_none tableSize _ k hk]
    | some h =>
      rw [findCourse_tableOf tableSize hpos _ k h hk, findCourse_tableOf tableSize hpos _ k h hk]
      congr 1
      apply firstMatch_append_of_covered
      intro e he hek
      exact ⟨e, by simp [he], hek⟩
  · intro hcs
    subst hcs
    constructor
    · intro c
      rw [hc2 c, hc1 c, p0.count_eq]
      simp only [List.count_nil]
      omega
    · rw [hl2, hl1, p0.length_eq]
      simp only [List.length_nil]
      omega

/-- Witness of C19: the three lines of the end-to-end scenario loaded twice
into the fresh 20-bucket table; `getAllCourses` then has six courses and the
lookup of `CSCI300` still returns the course of the first load. -/
theorem C19_cumulative_loading_witness :
    (0 : Int) < 20 ∧
    insertAll (HashTable.new 20) [] = some (HashTable.new 20) ∧
    loadLines (HashTable.new 20) scenarioLines =
      some (tableOf 20 [cCSCI100, cCSCI300, cMATH201]) ∧
    loadLines (tableOf 20 [cCSCI100, cCSCI300, cMATH201]) scenarioLines =
      some (tableOf 20 [cCSCI100, cCSCI300, cMATH201, cCSCI100, cCSCI300, cMATH201]) ∧
    getAllCourses (tableOf 20 [cCSCI100, cCSCI300, cMATH201, cCSCI100, cCSCI300, cMATH201]) =
      some [cMATH201, cMATH201, cCSCI100, cCSCI100, cCSCI300, cCSCI300] ∧
    ∃ t2 all0 all1 all2,
      loadLines (tableOf 20 [cCSCI100, cCSCI300, cMATH201]) scenarioLines = some t2 ∧
      loadDataStructure (some scenarioLines) (tableOf 20 [cCSCI100, cCSCI300, cMATH201]) =
        some (true, t2) ∧
      getAllCourses (HashTable.new 20) = some all0 ∧
      getAllCourses (tableOf 20 [cCSCI100, cCSCI300, cMATH201]) = some all1 ∧
      getAllCourses t2 = some all2 ∧
      (∀ (i : Nat) (chain0 : List Course), (HashTable.new 20).buckets[i]? = some chain0 →
        ∃ added, (tableOf 20 [cCSCI100, cCSCI300, cMATH201]).buckets[i]? =
            some (chain0 ++ added) ∧
          t2.buckets[i]? = some (chain0 ++ added ++ added)) ∧
      (∀ c, all1.count c = all0.count c + (parseAll scenarioLines).count c) ∧
      (∀ c, all2.count c = all1.count c + (parseAll scenarioLines).count c) ∧
      all1.length = all0.length + (parseAll scenarioLines).length ∧
      all2.length = all1.length + (parseAll scenarioLines).length ∧
      (∀ k, findCourse t2 k = findCourse (tableOf 20 [cCSCI100, cCSCI300, cMATH201]) k) ∧
      (([] : List Course) = [] →
        (∀ c, all2.count c = 2 * all1.count c) ∧ all2.length = 2 * all1.length) :=
  ⟨by decide, by decide, by decide, by decide, by decide,
    C19_cumulative_loading 20 [] scenarioLines (HashTable.new 20)
      (tableOf 20 [cCSCI100, cCSCI300, cMATH201]) (by decide) (by decide) (by decide)⟩

/-- C19 as stated fails on a table that already holds entries.  The 20-bucket
table holds `CSCI100`; loading the line `CSCI100,Intro to CS` once gives two
courses and loading it a second time gives three, not four: the length does not
double, and the course parsed from the line occurs three times, not twice as
often as the two times after one load. -/
theorem C19_counterexample :
    insertAll (HashTable.new 20) [cCSCI100] = some (tableOf 20 [cCSCI100]) ∧
    parseAll [lineCSCI100] = [cCSCI100] ∧
    loadLines (tableOf 20 [cCSCI100]) [lineCSCI100] = some (tableOf 20 [cCSCI100, cCSCI100]) ∧
    loadLines (tableOf 20 [cCSCI100, cCSCI100]) [lineCSCI100] =
      some (tableOf 20 [cCSCI100, cCSCI100, cCSCI100]) ∧
    getAllCourses (tableOf 20 [cCSCI100, cCSCI100]) = some [cCSCI100, cCSCI100] ∧
    getAllCourses (tableOf 20 [cCSCI100, cCSCI100, cCSCI100]) =
      some [cCSCI100, cCSCI100, cCSCI100] ∧
    [cCSCI100, cCSCI100, cCSCI100].length ≠ 2 * [cCSCI100, cCSCI100].length ∧
    [cCSCI100, cCSCI100, cCSCI100].count cCSCI100 ≠ 2 * [cCSCI100, cCSCI100].count cCSCI100 :=
  ⟨by decide, by decide, by decide, by decide, by decide, by decide, by decide, by decide⟩

/-! ## Concrete instances of C15, C17 and C18 -/

/-- Witness of C15: the file with the lines `CSCI100,Intro to CS`, `CSCI100`
(one field, skipped) and `CSCI300,Intro to Algorithms,CSCI100` loads with `true`
into the fresh 20-bucket table, as does the file without the skipped line; the
file that cannot be opened gives `false` and the table unchanged. -/
theorem C15_input_source_error_witness :
    loadDataStructure none (HashTable.new 20) = some (false, HashTable.new 20) ∧
    loadDataStructure (some [lineCSCI100, sCSCI100, lineCSCI300]) (HashTable.new 20) =
      some (true, tableOf 20 [cCSCI100, cCSCI300]) ∧
    loadDataStructure (some [lineCSCI100, sCSCI100, lineCSCI300]) (HashTable.new 20) =
      loadDataStructure
        (some ([lineCSCI100, sCSCI100, lineCSCI300].filter
          (fun line => (parseLine (trim line)).isSome))) (HashTable.new 20) :=
  ⟨(C15_input_source_error (HashTable.new 20) [lineCSCI100, sCSCI100, lineCSCI300]).1,
    by decide,
    (C15_input_source_error (HashTable.new 20) [lineCSCI100, sCSCI100, lineCSCI300]).2.2.2.1⟩

/-- Witness of C17: the line `CSCI300,Intro to Algorithms,CSCI100` has its first
comma after `CSCI300`, followed by more characters, and is inserted. -/
theorem C17_line_acceptance_witness :
    trim lineCSCI300 = sCSCI300 ++ comma :: (lineCSCI300.drop 8) ∧
    lineCSCI300.drop 8 ≠ [] ∧
    ∃ c, parseLine (trim lineCSCI300) = some c ∧
      processLine (HashTable.new 20) lineCSCI300 = insertCourse (HashTable.new 20) c :=
  ⟨by decide, by decide,
    (C17_line_acceptance (HashTable.new 20) lineCSCI300).1.mpr
      ⟨sCSCI300, lineCSCI300.drop 8, by decide, by decide⟩⟩

/-- Witness of C18: normalizing ` csci300 ` twice gives `CSCI300`, and on the
table loaded from the three lines of the end-to-end scenario the query for the
stored prerequisite `CSCI100` of `CSCI300` finds the course `CSCI100`. -/
theorem C18_normalization_idempotent_witness :
    toUpper (trim (toUpper (trim [32, 99, 115, 99, 105, 51, 48, 48, 32]))) =
      toUpper (trim [32, 99, 115, 99, 105, 51, 48, 48, 32]) ∧
    toUpper (trim [32, 99, 115, 99, 105, 51, 48, 48, 32]) = sCSCI300 ∧
    loadLines (HashTable.new 20) scenarioLines =
      some (tableOf 20 [cCSCI100, cCSCI300, cMATH201]) ∧
    singleCourseQuery (tableOf 20 [cCSCI100, cCSCI300, cMATH201]) sCSCI100 =
      some (printFound cCSCI100) ∧
    ((∃ e ∈ [] ++ parseAll scenarioLines, e.courseNumber = sCSCI100) ↔
      ∃ d, d.courseNumber = sCSCI100 ∧
        singleCourseLookup (tableOf 20 [cCSCI100, cCSCI300, cMATH201]) sCSCI100 =
          some (some d)) :=
  ⟨(C18_normalization_idempotent [32, 99, 115, 99, 105, 51, 48, 48, 32]).1, by decide,
    by decide, by decide,
    (((C18_normalization_idempotent []).2.2.2 20 [] scenarioLines (HashTable.new 20)
      (tableOf 20 [cCSCI100, cCSCI300, cMATH201]) (by decide) (by decide) (by decide)
      cCSCI300 (by decide)).2 sCSCI100 (by decide) (by simp [sCSCI100, isspace])).2.1⟩

/-! ## C10: case-insensitive query -/

/-- C10, amended.  For every table built by inserting the courses `cs` into a
fresh table with a positive bucket count, every course `c` of `cs` that is the
first one with its `courseNumber` `K`, where `K` holds no whitespace byte, and
every raw query text `r` with `toUpper(r) = K`: the single-course query
(`cin >> input`, then `findCourse(toUpper(input))`) finds `c` and prints it,
also when `r` stands between whitespace on standard input. -/
theorem C10_case_insensitive_query (tableSize : Int) (cs pre post : List Course)
    (t : HashTable) (c : Course) (K r : Str)
    (hpos : 0 < tableSize) (ht : insertAll (HashTable.new tableSize) cs = some t)
    (hcs : cs = pre ++ c :: post) (hc : c.courseNumber = K)
    (hfirst : ∀ d ∈ pre, d.courseNumber ≠ K) (hr : toUpper r = K)
    (hK : ∀ b ∈ K, isspace b = false) :
    singleCourseLookup t r = some (some c) ∧
    singleCourseQuery t r = some (printFound c) ∧
    (∀ l rr : Str, (∀ b ∈ l, isspace b = true) → (∀ b ∈ rr, isspace b = true) →
      singleCourseLookup t (l ++ r ++ rr) = some (some c) ∧
      singleCourseQuery t (l ++ r ++ rr) = some (printFound c)) := by
  have h1 := insertAll_new tableSize hpos cs t ht
  have hf := insertAll_fits tableSize cs t _ ht rfl
  subst h1
  obtain ⟨h, hh⟩ := hf c (by rw [hcs]; simp)
  rw [hc] at hh
  have hfind : findCourse (tableOf tableSize cs) (toUpper r) = some (some c) := by
    rw [hr, findCourse_tableOf tableSize hpos cs K h hh,
      firstMatch_split cs pre post c K hcs hc hfirst]
  have hrws : ∀ b ∈ r, isspace b = false := by
    intro b hb
    have hmem : toupper b ∈ K := by
      rw [← hr]
      unfold toUpper
      exact List.mem_map.mpr ⟨b, hb, rfl⟩
    rw [← isspace_toupper b]
    exact hK _ hmem
  have hpad : ∀ l rr : Str, (∀ b ∈ l, isspace b = true) → (∀ b ∈ rr, isspace b = true) →
      singleCourseLookup (tableOf tableSize cs) (l ++ r ++ rr) = some (some c) ∧
      singleCourseQuery (tableOf tableSize cs) (l ++ r ++ rr) = some (printFound c) := by
    intro l rr hl hrr
    unfold singleCourseLookup singleCourseQuery printSingleCourse
    rw [cinExtract_padded l r rr hl hrws hrr]
    simp only [hfind, and_self]
  have h0 := hpad [] [] (by simp) (by simp)
  simp only [List.nil_append, List.append_nil] at h0
  exact ⟨h0.1, h0.2, hpad⟩

/-- Witness of C10: `K = "CSCI300"` stored after `CSCI100`, and the raw query
`csci300`, also followed by a newline. -/
theorem C10_case_insensitive_query_witness :
    (0 : Int) < 20 ∧
    insertAll (HashTable.new 20) [cCSCI100, cCSCI300] = some (tableOf 20 [cCSCI100, cCSCI300]) ∧
    toUpper [99, 115, 99, 105, 51, 48, 48] = sCSCI300 ∧
    (∀ b ∈ sCSCI300, isspace b = false) ∧
    singleCourseQuery (tableOf 20 [cCSCI100, cCSCI300]) [99, 115, 99, 105, 51, 48, 48, 10] =
      some (printFound cCSCI300) ∧
    singleCourseLookup (tableOf 20 [cCSCI100, cCSCI300]) [99, 115, 99, 105, 51, 48, 48] =
      some (some cCSCI300) ∧
    singleCourseQuery (tableOf 20 [cCSCI100, cCSCI300]) [99, 115, 99, 105, 51, 48, 48] =
      some (printFound cCSCI300) :=
  ⟨by decide, by decide, by decide, by simp [sCSCI300, isspace], by decide,
    (C10_case_insensitive_query 20 [cCSCI100, cCSCI300] [cCSCI100] []
      (tableOf 20 [cCSCI100, cCSCI300]) cCSCI300 sCSCI300 [99, 115, 99, 105, 51, 48, 48]
      (by decide) (by decide) rfl rfl (by decide) (by decide)
      (by simp [sCSCI300, isspace])).1,
    (C10_case_insensitive_query 20 [cCSCI100, cCSCI300] [cCSCI100] []
      (tableOf 20 [cCSCI100, cCSCI300]) cCSCI300 sCSCI300 [99, 115, 99, 105, 51, 48, 48]
      (by decide) (by decide) rfl rfl (by decide) (by decide)
      (by simp [sCSCI300, isspace])).2.1⟩

/-- C10 as stated fails.  The line `a b,X` loaded into a fresh 20-bucket table
stores the course with the upper-case `courseNumber` `A B`, the first and only
one with that number; the raw query `a b` differs from it only in letter case
(`toUpper` of it is `A B`), but `cin >> input` reads `a`, the lookup of `A`
returns not-found and the query prints `Course not found.`. -/
theorem C10_counterexample :
    loadDataStructure (some [lineAB]) (HashTable.new 20) = some (true, tableOf 20 [cAB]) ∧
    firstMatch [cAB] cAB.courseNumber = some cAB ∧
    toUpper cAB.courseNumber = cAB.courseNumber ∧
    toUpper [97, 32, 98] = cAB.courseNumber ∧
    cinExtract [97, 32, 98] = [97] ∧
    singleCourseLookup (tableOf 20 [cAB]) [97, 32, 98] = some none ∧
    singleCourseQuery (tableOf 20 [cAB]) [97, 32, 98] = some [sNotFound] ∧
    singleCourseLookup (tableOf 20 [cAB]) [97, 32, 98] ≠ some (some cAB) :=
  ⟨by decide, by decide, by decide, by decide, by decide, by decide, by decide, by decide⟩

end CoursePlanner
